import Mathlib

-- Verification of the ring-attention (context parallelism) and data-parallel
-- gradient-synchronization core of the picotron repository.
--
-- Embedding conventions:
-- * Tensors are modelled over the reals; dtype casts (`.to(torch.float32)`,
--   `.to(q.dtype)`) are the identity in this model, and `unsqueeze`/`squeeze`
--   of a trailing singleton dimension is dropped (an lse tensor is a
--   per-row vector `Fin n -> Real`).
-- * The batch and head dimensions are pointwise-parallel in every operation
--   of the source (no computation mixes two batch or head slices), so a
--   single (batch, head) slice is modelled: a block is `Fin n -> Fin d -> Real`
--   with `n` the rank-local sequence length and `d` the head dimension.
-- * `float('-inf')` score entries: `torch.exp` of them is exactly 0 and
--   `torch.max` over a row that contains at least one finite entry ignores
--   them; the model takes the row maximum over unmasked entries and lets a
--   masked entry contribute 0 to `exp_S`.
-- * The distributed loop is modelled globally: the state of all `W` ranks is
--   a function `Fin W -> _`, and `send_recv` (send to next neighbour, receive
--   from the previous one) becomes the pure rotation
--   `fun r => state (prevRank r)`.

noncomputable section

namespace Picotron

open Finset

-- A rank-local block of Q, K, V, O or a gradient: rows are sequence
-- positions, columns are head-dimension coordinates.
abbrev Mat (n d : ℕ) := Fin n → Fin d → ℝ

-- A per-row statistic (log-sum-exp vector).
abbrev Vec (n : ℕ) := Fin n → ℝ

-- torch.nn.functional.sigmoid
def sigmoid (x : ℝ) : ℝ := 1 / (1 + Real.exp (-x))

-- torch.nn.functional.logsigmoid
def logsigmoid (x : ℝ) : ℝ := Real.log (sigmoid x)

/-! Source: `ring_attention_forward` (context_parallel.py lines 177-193). -/

-- S = torch.matmul(q, k.transpose(-2, -1)) * sm_scale
def scores {n d : ℕ} (q k : Mat n d) (sm_scale : ℝ) : Fin n → Fin n → ℝ :=
  fun i j => (∑ t, q i t * k j t) * sm_scale

-- The causal mask `torch.triu(ones, diagonal=1)`: entry (i, j) is masked
-- (set to -inf) exactly when the causal flag is set and j > i.
def maskedEntry (is_causal : Bool) {n : ℕ} (i j : Fin n) : Prop :=
  is_causal = true ∧ i < j

instance (is_causal : Bool) {n : ℕ} (i j : Fin n) :
    Decidable (maskedEntry is_causal i j) := by
  unfold maskedEntry; infer_instance

-- S_max = torch.max(S, dim=-1)[0]: the row maximum; -inf entries never
-- realize the maximum because the unmasked part of a row is nonempty
-- (entry (i, i) is never masked), so this is the maximum over unmasked
-- entries.
def rowMax {n : ℕ} (S : Fin n → Fin n → ℝ) (is_causal : Bool) (i : Fin n) : ℝ :=
  (Finset.univ.filter (fun j => ¬ maskedEntry is_causal i j)).sup'
    ⟨i, by simp [Finset.mem_filter, maskedEntry]⟩ (S i)

-- exp_S = torch.exp(S - S_max); a masked (-inf) entry exponentiates to 0.
def expScores {n d : ℕ} (q k : Mat n d) (sm_scale : ℝ) (is_causal : Bool)
    (i j : Fin n) : ℝ :=
  if maskedEntry is_causal i j then 0
  else Real.exp (scores q k sm_scale i j - rowMax (scores q k sm_scale) is_causal i)

-- exp_sum = torch.sum(exp_S, dim=-1)
def expSum {n d : ℕ} (q k : Mat n d) (sm_scale : ℝ) (is_causal : Bool)
    (i : Fin n) : ℝ :=
  ∑ j, expScores q k sm_scale is_causal i j

-- P = exp_S / exp_sum
def attnP {n d : ℕ} (q k : Mat n d) (sm_scale : ℝ) (is_causal : Bool)
    (i j : Fin n) : ℝ :=
  expScores q k sm_scale is_causal i j / expSum q k sm_scale is_causal i

-- Returns (O, log_sum_exp): O = P @ v, log_sum_exp = log(exp_sum) + S_max.
def ring_attention_forward {n d : ℕ} (q k v : Mat n d) (sm_scale : ℝ)
    (is_causal : Bool) : Mat n d × Vec n :=
  (fun i t => ∑ j, attnP q k sm_scale is_causal i j * v j t,
   fun i => Real.log (expSum q k sm_scale is_causal i)
            + rowMax (scores q k sm_scale) is_causal i)

/-! Source: `ring_attention_backward` (context_parallel.py lines 195-220). -/

-- P = torch.exp(S - softmax_lse.unsqueeze(-1)) with S masked to -inf at
-- masked entries beforehand when is_causal.
def bwdP {n d : ℕ} (q k : Mat n d) (sm_scale : ℝ) (softmax_lse : Vec n)
    (is_causal : Bool) (i j : Fin n) : ℝ :=
  if maskedEntry is_causal i j then 0
  else Real.exp (scores q k sm_scale i j - softmax_lse i)

-- dP = torch.matmul(dO, V.transpose(-2, -1))
def bwdDP {n d : ℕ} (dO v : Mat n d) (i j : Fin n) : ℝ := ∑ t, dO i t * v j t

-- D = torch.sum(dO * O, dim=-1)
def bwdDrow {n d : ℕ} (dO o : Mat n d) (i : Fin n) : ℝ := ∑ t, dO i t * o i t

-- dS = P * (dP - D), then masked_fill(mask, 0) when is_causal (at a masked
-- entry P is already 0, so the two masking passes agree and are written as
-- a single conditional here).
def bwdDS {n d : ℕ} (dO q k v o : Mat n d) (softmax_lse : Vec n) (sm_scale : ℝ)
    (is_causal : Bool) (i j : Fin n) : ℝ :=
  if maskedEntry is_causal i j then 0
  else bwdP q k sm_scale softmax_lse is_causal i j
       * (bwdDP dO v i j - bwdDrow dO o i)

-- Returns (dQ, dK, dV): dQ = dS @ K * scale, dK = dSᵀ @ Q * scale,
-- dV = Pᵀ @ dO.
def ring_attention_backward {n d : ℕ} (dO q k v o : Mat n d)
    (softmax_lse : Vec n) (sm_scale : ℝ) (is_causal : Bool) :
    Mat n d × Mat n d × Mat n d :=
  (fun i t => (∑ j, bwdDS dO q k v o softmax_lse sm_scale is_causal i j * k j t) * sm_scale,
   fun j t => (∑ i, bwdDS dO q k v o softmax_lse sm_scale is_causal i j * q i t) * sm_scale,
   fun j t => ∑ i, bwdP q k sm_scale softmax_lse is_causal i j * dO i t)

/-! Source: `update_out_and_lse` (context_parallel.py lines 222-252). -/

-- The inner closure `_update`:
--   current_out = current_out - F.sigmoid(block_lse - current_lse) * (current_out - block_out)
--   current_lse = current_lse - F.logsigmoid(current_lse - block_lse)
def updateFn {n d : ℕ} (current_out : Mat n d) (current_lse : Vec n)
    (block_out : Mat n d) (block_lse : Vec n) : Mat n d × Vec n :=
  (fun i t => current_out i t
      - sigmoid (block_lse i - current_lse i) * (current_out i t - block_out i t),
   fun i => current_lse i - logsigmoid (current_lse i - block_lse i))

-- The slice-free behaviour of `update_out_and_lse` (the ring forward loop
-- always calls it with `slice_ = None`): first contribution returns the
-- block unchanged, later contributions merge through `_update`.
def updatePure {n d : ℕ} (state : Option (Mat n d × Vec n))
    (block_out : Mat n d) (block_lse : Vec n) : Mat n d × Vec n :=
  match state with
  | none => (block_out, block_lse)
  | some (o, l) => updateFn o l block_out block_lse

-- Full `update_out_and_lse` with the `slice_` argument; a slice is modelled
-- as a row predicate selecting the rows of the running state that the
-- (matching-shaped) block updates.  `raise RuntimeError` becomes
-- `Except.error`.
def update_out_and_lse {n d : ℕ} (out : Option (Mat n d × Vec n))
    (block_out : Mat n d) (block_lse : Vec n)
    (slice_ : Option (Fin n → Bool)) : Except String (Mat n d × Vec n) :=
  match out with
  | none =>
    match slice_ with
    | some _ => Except.error "first update_out_and_lse should not pass slice_ args"
    | none => Except.ok (block_out, block_lse)
  | some (o, l) =>
    match slice_ with
    | some p =>
      Except.ok (fun i t => if p i then (updateFn o l block_out block_lse).1 i t else o i t,
                 fun i => if p i then (updateFn o l block_out block_lse).2 i else l i)
    | none => Except.ok (updateFn o l block_out block_lse)

/-! Source: `RingAttentionFunc.forward` (context_parallel.py lines 86-116). -/

-- Forward visibility test, line 101: `if not is_causal or step <= comm.rank`.
def fwdVisible (is_causal : Bool) (step : ℕ) (rank : ℕ) : Bool :=
  !is_causal || decide (step ≤ rank)

-- The causal flag handed to the block kernel, line 103: `is_causal and step == 0`.
def fwdBlockCausal (is_causal : Bool) (step : ℕ) : Bool :=
  is_causal && decide (step = 0)

-- Backward visibility test, line 143: `if step <= kv_comm.rank or not is_causal`.
def bwdVisible (is_causal : Bool) (step : ℕ) (rank : ℕ) : Bool :=
  decide (step ≤ rank) || !is_causal

-- Backward block causal flag, line 144: `bwd_causal = is_causal and step == 0`.
def bwdBlockCausal (is_causal : Bool) (step : ℕ) : Bool :=
  is_causal && decide (step = 0)

-- The ring neighbour a rank receives from: `send_recv` sends to rank r+1
-- and receives from rank r-1 (mod W).
def prevRank {W : ℕ} (r : Fin W) : Fin W :=
  ⟨((r : ℕ) + (W - 1)) % W, Nat.mod_lt _ r.pos⟩

-- One ring rotation of a per-rank family of buffers: after
-- `send_recv; commit; wait`, rank r holds what rank r-1 held.
def rotate {W : ℕ} {α : Type} (f : Fin W → α) : Fin W → α :=
  fun r => f (prevRank r)

-- The per-rank state of the forward ring loop, for all ranks at once:
-- the running (out, lse) accumulator (None before the first contribution)
-- and the current K/V buffers held by each rank.
structure FwdState (W n d : ℕ) where
  acc : Fin W → Option (Mat n d × Vec n)
  curK : Fin W → Mat n d
  curV : Fin W → Mat n d

-- One iteration of the forward loop body at step `s` (executed by every
-- rank in lockstep): the K/V exchange is issued unless this is the last
-- step, the causally visible ranks run the block kernel and merge, and the
-- exchanged buffers are adopted.
def fwdStep {W n d : ℕ} (q : Fin W → Mat n d) (sm_scale : ℝ) (is_causal : Bool)
    (st : FwdState W n d) (s : ℕ) : FwdState W n d :=
  { acc := fun r =>
      if fwdVisible is_causal s (r : ℕ) then
        let b := ring_attention_forward (q r) (st.curK r) (st.curV r) sm_scale
          (fwdBlockCausal is_causal s)
        some (updatePure (st.acc r) b.1 b.2)
      else st.acc r
    curK := if s + 1 ≠ W then rotate st.curK else st.curK
    curV := if s + 1 ≠ W then rotate st.curV else st.curV }

-- The loop `for step in range(comm.world_size)` after `S` iterations,
-- started from out = lse = None and each rank holding its own K/V block.
def fwdLoop {W n d : ℕ} (q k v : Fin W → Mat n d) (sm_scale : ℝ)
    (is_causal : Bool) : ℕ → FwdState W n d
  | 0 => ⟨fun _ => none, k, v⟩
  | s + 1 => fwdStep q sm_scale is_causal (fwdLoop q k v sm_scale is_causal s) s

-- The value returned by `RingAttentionFunc.forward` at each rank
-- (`out.to(q.dtype)` is an identity cast in the real-valued model).
def forwardOut {W n d : ℕ} (q k v : Fin W → Mat n d) (sm_scale : ℝ)
    (is_causal : Bool) (r : Fin W) : Mat n d :=
  (((fwdLoop q k v sm_scale is_causal W).acc r).getD (0, 0)).1

-- The `lse` statistic retained for the backward pass (`lse.squeeze(-1)`).
def forwardLse {W n d : ℕ} (q k v : Fin W → Mat n d) (sm_scale : ℝ)
    (is_causal : Bool) (r : Fin W) : Vec n :=
  (((fwdLoop q k v sm_scale is_causal W).acc r).getD (0, 0)).2

-- `ctx.save_for_backward(q, k_og, v_og, out, lse.squeeze(-1))`: the K/V
-- entries saved are the clones `k_og`, `v_og` taken before the ring loop
-- (lines 90-91), so they are the rank's original local blocks.
def forwardSaved {W n d : ℕ} (q k v : Fin W → Mat n d) (sm_scale : ℝ)
    (is_causal : Bool) (r : Fin W) :
    Mat n d × Mat n d × Mat n d × Mat n d × Vec n :=
  (q r, k r, v r, forwardOut q k v sm_scale is_causal r,
   forwardLse q k v sm_scale is_causal r)

/-! Source: `RingAttentionFunc.backward` (context_parallel.py lines 118-175). -/

-- The per-rank state of the backward ring loop, for all ranks at once.
-- `dq`, `dk`, `dv` are the Python variables of the same names (None before
-- their first assignment); because every step ends with
-- `next_dk = d_kv_comm.send_recv(dk)`, the value a rank receives on the
-- gradient channel at step s+1 (or at the final wait) is exactly the `dk`
-- its previous neighbour held at the end of step s, so the in-flight
-- gradient channel needs no separate field.
structure BwdState (W n d : ℕ) where
  dq : Fin W → Option (Mat n d)
  dk : Fin W → Option (Mat n d)
  dv : Fin W → Option (Mat n d)
  curK : Fin W → Mat n d
  curV : Fin W → Mat n d

-- One iteration of the backward loop body at step `s`, executed by all
-- ranks in lockstep.  `(st.dk (prevRank r)).getD 0` is the value delivered
-- by `d_kv_comm.wait()`; the default is never read because that branch is
-- only reached when `dq` (hence every rank's `dk`) is already set.
def bwdStep {W n d : ℕ} (dout q : Fin W → Mat n d)
    (out : Fin W → Mat n d) (lse : Fin W → Vec n) (sm_scale : ℝ)
    (is_causal : Bool) (st : BwdState W n d) (s : ℕ) : BwdState W n d :=
  { dq := fun r =>
      if bwdVisible is_causal s (r : ℕ) = true then
        if st.dq r = none then
          some (ring_attention_backward (dout r) (q r) (st.curK r) (st.curV r)
            (out r) (lse r) sm_scale (bwdBlockCausal is_causal s)).1
        else
          some (fun i t => (st.dq r).getD 0 i t
            + (ring_attention_backward (dout r) (q r) (st.curK r) (st.curV r)
              (out r) (lse r) sm_scale (bwdBlockCausal is_causal s)).1 i t)
      else st.dq r
    dk := fun r =>
      if bwdVisible is_causal s (r : ℕ) = true then
        if st.dq r = none then
          some (ring_attention_backward (dout r) (q r) (st.curK r) (st.curV r)
            (out r) (lse r) sm_scale (bwdBlockCausal is_causal s)).2.1
        else
          some (fun j t =>
            (ring_attention_backward (dout r) (q r) (st.curK r) (st.curV r)
              (out r) (lse r) sm_scale (bwdBlockCausal is_causal s)).2.1 j t
            + (st.dk (prevRank r)).getD 0 j t)
      else if s ≠ 0 then st.dk (prevRank r)
      else st.dk r
    dv := fun r =>
      if bwdVisible is_causal s (r : ℕ) = true then
        if st.dq r = none then
          some (ring_attention_backward (dout r) (q r) (st.curK r) (st.curV r)
            (out r) (lse r) sm_scale (bwdBlockCausal is_causal s)).2.2
        else
          some (fun j t =>
            (ring_attention_backward (dout r) (q r) (st.curK r) (st.curV r)
              (out r) (lse r) sm_scale (bwdBlockCausal is_causal s)).2.2 j t
            + (st.dv (prevRank r)).getD 0 j t)
      else if s ≠ 0 then st.dv (prevRank r)
      else st.dv r
    curK := if s + 1 ≠ W then rotate st.curK else st.curK
    curV := if s + 1 ≠ W then rotate st.curV else st.curV }

-- The backward loop after `S` iterations; the saved K/V the loop starts
-- from are the original blocks `k`, `v` (`k_og`, `v_og`), and the saved
-- `out`/`softmax_lse` are the forward results.
def bwdLoop {W n d : ℕ} (q k v : Fin W → Mat n d) (sm_scale : ℝ)
    (is_causal : Bool) (dout : Fin W → Mat n d) : ℕ → BwdState W n d
  | 0 => ⟨fun _ => none, fun _ => none, fun _ => none, k, v⟩
  | s + 1 => bwdStep dout q (forwardOut q k v sm_scale is_causal)
      (forwardLse q k v sm_scale is_causal) sm_scale is_causal
      (bwdLoop q k v sm_scale is_causal dout s) s

-- First component returned by `RingAttentionFunc.backward`: `dq`.
def backwardDQ {W n d : ℕ} (q k v : Fin W → Mat n d) (sm_scale : ℝ)
    (is_causal : Bool) (dout : Fin W → Mat n d) (r : Fin W) : Mat n d :=
  ((bwdLoop q k v sm_scale is_causal dout W).dq r).getD 0

-- Second component: `next_dk` after the final `d_kv_comm.wait()` — the dk
-- accumulation the previous neighbour sent at the end of step W-1.
def backwardDK {W n d : ℕ} (q k v : Fin W → Mat n d) (sm_scale : ℝ)
    (is_causal : Bool) (dout : Fin W → Mat n d) (r : Fin W) : Mat n d :=
  ((bwdLoop q k v sm_scale is_causal dout W).dk (prevRank r)).getD 0

-- Third component: `next_dv` after the final wait.
def backwardDV {W n d : ℕ} (q k v : Fin W → Mat n d) (sm_scale : ℝ)
    (is_causal : Bool) (dout : Fin W → Mat n d) (r : Fin W) : Mat n d :=
  ((bwdLoop q k v sm_scale is_causal dout W).dv (prevRank r)).getD 0

/-! Source: `DataParallel` (data_parallel.py). -/

-- The synchronizer state: the `require_backward_grad_sync` flag.
structure DPState where
  require_backward_grad_sync : Bool

-- `dist.all_reduce(grad, op=dist.ReduceOp.SUM, group=dp_group)`: every rank
-- of the data-parallel group ends up holding the elementwise sum of all
-- ranks' buffers.
def allReduceSum {W m : ℕ} (grads : Fin W → Vec m) : Vec m :=
  fun i => ∑ ρ, grads ρ i

-- `DataParallel._allreduce_grads` (lines 33-42), evaluated at rank r of a
-- data-parallel group of size `W` whose per-rank gradients are `grads`.
-- The second component counts the collective operations performed.
def allreduce_grads {W m : ℕ} (require_backward_grad_sync : Bool)
    (grads : Fin W → Vec m) (r : Fin W) : Vec m × ℕ :=
  if require_backward_grad_sync then
    (fun i => allReduceSum grads i / (W : ℝ), 1)
  else
    (grads r, 0)

-- `DataParallel.no_sync` (lines 44-53).  A `@contextlib.contextmanager`
-- generator with no try/finally: the statement after `yield` runs only when
-- the with-block completes normally; when the body raises, the exception is
-- thrown into the generator at the yield point and propagates, so the
-- re-enable line is skipped.  The body is a state transformer that may
-- succeed or raise.
def no_sync {ε α : Type} (body : DPState → Except ε α × DPState)
    (st : DPState) : Except ε α × DPState :=
  let stIn : DPState := { st with require_backward_grad_sync := false }
  match body stIn with
  | (Except.ok a, st2) => (Except.ok a, { st2 with require_backward_grad_sync := true })
  | (Except.error e, st2) => (Except.error e, st2)

/-! Spec-side reference definitions.

Modelled from the spec: the single-worker, full-sequence attention reference
of spec §8 ("the output of a single-worker, full-sequence attention
computation over the concatenation of all ranks' local Q/K/V blocks") and
the analytic attention-gradient formulas of spec §4.4.  A global sequence
position is addressed as a pair (b, j): block index b and offset j, standing
for the concatenated index b*n + j.  -/

-- Global visibility: with a causal mask, query position r*n+i attends to
-- key position b*n+j exactly when b*n+j ≤ r*n+i; without it, to every key.
def gVisible (is_causal : Bool) {W n : ℕ} (r : Fin W) (i : Fin n)
    (b : Fin W) (j : Fin n) : Prop :=
  is_causal = true → (b : ℕ) * n + (j : ℕ) ≤ (r : ℕ) * n + (i : ℕ)

instance (is_causal : Bool) {W n : ℕ} (r : Fin W) (i : Fin n) (b : Fin W)
    (j : Fin n) : Decidable (gVisible is_causal r i b j) := by
  unfold gVisible; infer_instance

-- Scores of the concatenated sequence: row (r, i), column (b, j).
def gScores {W n d : ℕ} (q k : Fin W → Mat n d) (sm_scale : ℝ)
    (r : Fin W) (i : Fin n) (b : Fin W) (j : Fin n) : ℝ :=
  scores (q r) (k b) sm_scale i j

-- Softmax denominator of the full-sequence attention row (r, i).
def refD {W n d : ℕ} (q k : Fin W → Mat n d) (sm_scale : ℝ) (is_causal : Bool)
    (r : Fin W) (i : Fin n) : ℝ :=
  ∑ b, ∑ j, if gVisible is_causal r i b j
    then Real.exp (gScores q k sm_scale r i b j) else 0

-- Softmax numerator (against V) of the full-sequence attention row (r, i).
def refNum {W n d : ℕ} (q k v : Fin W → Mat n d) (sm_scale : ℝ)
    (is_causal : Bool) (r : Fin W) (i : Fin n) (t : Fin d) : ℝ :=
  ∑ b, ∑ j, if gVisible is_causal r i b j
    then Real.exp (gScores q k sm_scale r i b j) * v b j t else 0

-- The single-worker full-sequence (causal or full) attention output, row
-- (r, i): softmax of the masked scores, applied to the concatenated V.
def refOut {W n d : ℕ} (q k v : Fin W → Mat n d) (sm_scale : ℝ)
    (is_causal : Bool) (r : Fin W) (i : Fin n) (t : Fin d) : ℝ :=
  refNum q k v sm_scale is_causal r i t / refD q k sm_scale is_causal r i

-- The full-sequence log-sum-exp of row (r, i).
def refLse {W n d : ℕ} (q k : Fin W → Mat n d) (sm_scale : ℝ)
    (is_causal : Bool) (r : Fin W) (i : Fin n) : ℝ :=
  Real.log (refD q k sm_scale is_causal r i)

-- The full-sequence attention probabilities P = exp(S - lse), zero outside
-- the causal mask.
def refP {W n d : ℕ} (q k : Fin W → Mat n d) (sm_scale : ℝ) (is_causal : Bool)
    (r : Fin W) (i : Fin n) (b : Fin W) (j : Fin n) : ℝ :=
  if gVisible is_causal r i b j
  then Real.exp (gScores q k sm_scale r i b j - refLse q k sm_scale is_causal r i)
  else 0

-- dP = dO · Vᵀ at the full-sequence level.
def refdP {W n d : ℕ} (v : Fin W → Mat n d) (dout : Fin W → Mat n d)
    (r : Fin W) (i : Fin n) (b : Fin W) (j : Fin n) : ℝ :=
  ∑ t, dout r i t * v b j t

-- D = rowsum(dO ⊙ O) at the full-sequence level.
def refDrow {W n d : ℕ} (q k v : Fin W → Mat n d) (sm_scale : ℝ)
    (is_causal : Bool) (dout : Fin W → Mat n d) (r : Fin W) (i : Fin n) : ℝ :=
  ∑ t, dout r i t * refOut q k v sm_scale is_causal r i t

-- dS = P ⊙ (dP − D) at the full-sequence level (zero outside the mask
-- because P is).
def refdS {W n d : ℕ} (q k v : Fin W → Mat n d) (sm_scale : ℝ)
    (is_causal : Bool) (dout : Fin W → Mat n d)
    (r : Fin W) (i : Fin n) (b : Fin W) (j : Fin n) : ℝ :=
  refP q k sm_scale is_causal r i b j
    * (refdP v dout r i b j - refDrow q k v sm_scale is_causal dout r i)

-- dQ = dS·K·scale: the exact gradient row (r, i) of the query block.
def refdQ {W n d : ℕ} (q k v : Fin W → Mat n d) (sm_scale : ℝ)
    (is_causal : Bool) (dout : Fin W → Mat n d)
    (r : Fin W) (i : Fin n) (t : Fin d) : ℝ :=
  (∑ b, ∑ j, refdS q k v sm_scale is_causal dout r i b j * k b j t) * sm_scale

-- dK = dSᵀ·Q·scale: the exact gradient row (b, j) of the key sequence,
-- summed over every query row of every rank.
def refdK {W n d : ℕ} (q k v : Fin W → Mat n d) (sm_scale : ℝ)
    (is_causal : Bool) (dout : Fin W → Mat n d)
    (b : Fin W) (j : Fin n) (t : Fin d) : ℝ :=
  (∑ ρ, ∑ i, refdS q k v sm_scale is_causal dout ρ i b j * q ρ i t) * sm_scale

-- dV = Pᵗ·dO: the exact gradient row (b, j) of the value sequence.
def refdV {W n d : ℕ} (q k : Fin W → Mat n d) (sm_scale : ℝ)
    (is_causal : Bool) (dout : Fin W → Mat n d)
    (b : Fin W) (j : Fin n) (t : Fin d) : ℝ :=
  ∑ ρ, ∑ i, refP q k sm_scale is_causal ρ i b j * dout ρ i t

-- Modelled from the spec (§4.2): the naive reference combination of two
-- partial results, "new_lse = log(exp(lse) + exp(block_lse))" and
-- "new_out = exp(lse − new_lse)·out + exp(block_lse − new_lse)·block_out".
def mergeNaive {n d : ℕ} (out : Mat n d) (lse : Vec n)
    (block_out : Mat n d) (block_lse : Vec n) : Mat n d × Vec n :=
  (fun i t =>
      Real.exp (lse i - Real.log (Real.exp (lse i) + Real.exp (block_lse i))) * out i t
      + Real.exp (block_lse i - Real.log (Real.exp (lse i) + Real.exp (block_lse i)))
        * block_out i t,
   fun i => Real.log (Real.exp (lse i) + Real.exp (block_lse i)))

/-! Helper lemmas: the sigmoid-based merge in closed form. -/

lemma sigmoid_sub_exp (a b : ℝ) :
    sigmoid (a - b) = Real.exp a / (Real.exp a + Real.exp b) := by
  unfold sigmoid
  rw [neg_sub, Real.exp_sub]
  have ha := (Real.exp_pos a).ne'
  have hb := (Real.exp_pos b).ne'
  have hab : Real.exp a + Real.exp b ≠ 0 := by positivity
  field_simp

lemma logsigmoid_sub_exp (a b : ℝ) :
    logsigmoid (a - b) = a - Real.log (Real.exp a + Real.exp b) := by
  unfold logsigmoid
  rw [sigmoid_sub_exp,
    Real.log_div (Real.exp_ne_zero a) (by positivity), Real.log_exp]

-- `_update` on a pair of naive-sum states: merging (N/D, log D) with
-- (N'/D', log D') produces ((N+N')/(D+D'), log (D+D')).
lemma updateFn_frac {n d : ℕ} (N Nb : Mat n d) (D Db : Vec n)
    (hD : ∀ i, 0 < D i) (hDb : ∀ i, 0 < Db i) :
    updateFn (fun i t => N i t / D i) (fun i => Real.log (D i))
        (fun i t => Nb i t / Db i) (fun i => Real.log (Db i))
      = (fun i t => (N i t + Nb i t) / (D i + Db i),
         fun i => Real.log (D i + Db i)) := by
  unfold updateFn
  refine Prod.ext ?_ ?_
  · funext i t
    have h1 : sigmoid (Real.log (Db i) - Real.log (D i)) = Db i / (D i + Db i) := by
      rw [sigmoid_sub_exp, Real.exp_log (hDb i), Real.exp_log (hD i), add_comm]
    simp only [h1]
    have hDi := (hD i).ne'
    have hDbi := (hDb i).ne'
    have hsum : D i + Db i ≠ 0 := (add_pos (hD i) (hDb i)).ne'
    field_simp
    ring
  · funext i
    have h2 : logsigmoid (Real.log (D i) - Real.log (Db i))
        = Real.log (D i) - Real.log (D i + Db i) := by
      rw [logsigmoid_sub_exp, Real.exp_log (hD i), Real.exp_log (hDb i)]
    simp only [h2]
    ring

/-! Helper lemmas: the block kernel in closed form.  The masked weight
`wMask` is the exact exponential of an unmasked score and 0 at a masked
entry; the kernel's row-max subtraction cancels exactly over the reals. -/

def wMask {n d : ℕ} (q k : Mat n d) (sm_scale : ℝ) (is_causal : Bool)
    (i j : Fin n) : ℝ :=
  if maskedEntry is_causal i j then 0 else Real.exp (scores q k sm_scale i j)

lemma wMask_nonneg {n d : ℕ} (q k : Mat n d) (sm_scale : ℝ) (is_causal : Bool)
    (i j : Fin n) : 0 ≤ wMask q k sm_scale is_causal i j := by
  unfold wMask
  split_ifs
  · exact le_refl 0
  · exact (Real.exp_pos _).le

lemma wMask_diag_pos {n d : ℕ} (q k : Mat n d) (sm_scale : ℝ) (is_causal : Bool)
    (i : Fin n) : 0 < wMask q k sm_scale is_causal i i := by
  unfold wMask
  rw [if_neg (by simp [maskedEntry])]
  exact Real.exp_pos _

lemma sum_wMask_pos {n d : ℕ} (q k : Mat n d) (sm_scale : ℝ) (is_causal : Bool)
    (i : Fin n) : 0 < ∑ j, wMask q k sm_scale is_causal i j :=
  Finset.sum_pos' (fun j _ => wMask_nonneg q k sm_scale is_causal i j)
    ⟨i, Finset.mem_univ i, wMask_diag_pos q k sm_scale is_causal i⟩

lemma expScores_eq_wMask {n d : ℕ} (q k : Mat n d) (sm_scale : ℝ)
    (is_causal : Bool) (i j : Fin n) :
    expScores q k sm_scale is_causal i j
      = wMask q k sm_scale is_causal i j
        * Real.exp (-(rowMax (scores q k sm_scale) is_causal i)) := by
  unfold expScores wMask
  split_ifs with h
  · simp
  · rw [Real.exp_sub, Real.exp_neg, div_eq_mul_inv]

lemma expSum_eq_wMask {n d : ℕ} (q k : Mat n d) (sm_scale : ℝ)
    (is_causal : Bool) (i : Fin n) :
    expSum q k sm_scale is_causal i
      = (∑ j, wMask q k sm_scale is_causal i j)
        * Real.exp (-(rowMax (scores q k sm_scale) is_causal i)) := by
  unfold expSum
  rw [Finset.sum_mul]
  exact Finset.sum_congr rfl fun j _ => expScores_eq_wMask q k sm_scale is_causal i j

lemma attnP_eq_wMask {n d : ℕ} (q k : Mat n d) (sm_scale : ℝ)
    (is_causal : Bool) (i j : Fin n) :
    attnP q k sm_scale is_causal i j
      = wMask q k sm_scale is_causal i j
        / (∑ j', wMask q k sm_scale is_causal i j') := by
  unfold attnP
  rw [expScores_eq_wMask, expSum_eq_wMask,
    mul_div_mul_right _ _ (Real.exp_ne_zero _)]

-- The block kernel's output row is the wMask-weighted average of V.
lemma raf_out_eq {n d : ℕ} (q k v : Mat n d) (sm_scale : ℝ) (is_causal : Bool)
    (i : Fin n) (t : Fin d) :
    (ring_attention_forward q k v sm_scale is_causal).1 i t
      = (∑ j, wMask q k sm_scale is_causal i j * v j t)
        / (∑ j, wMask q k sm_scale is_causal i j) := by
  unfold ring_attention_forward
  simp only
  rw [Finset.sum_div]
  refine Finset.sum_congr rfl fun j _ => ?_
  rw [attnP_eq_wMask, div_mul_eq_mul_div]

-- The block kernel's log-sum-exp row is the log of the wMask row sum.
lemma raf_lse_eq {n d : ℕ} (q k v : Mat n d) (sm_scale : ℝ) (is_causal : Bool)
    (i : Fin n) :
    (ring_attention_forward q k v sm_scale is_causal).2 i
      = Real.log (∑ j, wMask q k sm_scale is_causal i j) := by
  unfold ring_attention_forward
  simp only
  rw [expSum_eq_wMask,
    Real.log_mul (sum_wMask_pos q k sm_scale is_causal i).ne' (Real.exp_ne_zero _),
    Real.log_exp]
  ring

/-! Helper lemmas: ring rotation arithmetic. -/

lemma prevRank_iterate_val {W : ℕ} :
    ∀ (s : ℕ) (r : Fin W), s ≤ W →
      ((prevRank^[s] r : Fin W) : ℕ) = ((r : ℕ) + (W - s)) % W := by
  intro s
  induction s with
  | zero =>
    intro r _
    simp only [Function.iterate_zero, id_eq, Nat.sub_zero, Nat.add_mod_right]
    exact (Nat.mod_eq_of_lt r.isLt).symm
  | succ s ih =>
    intro r hs
    have hW : 0 < W := r.pos
    rw [Function.iterate_succ_apply, ih (prevRank r) (by omega)]
    show (((r : ℕ) + (W - 1)) % W + (W - s)) % W = _
    rw [Nat.mod_add_mod]
    have he : (r : ℕ) + (W - 1) + (W - s) = ((r : ℕ) + (W - (s + 1))) + W := by omega
    rw [he, Nat.add_mod_right]

-- After a full revolution every block is back home.
lemma prevRank_iterate_W {W : ℕ} (r : Fin W) : prevRank^[W] r = r := by
  apply Fin.ext
  rw [prevRank_iterate_val W r (le_refl W)]
  simp only [Nat.sub_self, Nat.add_zero]
  exact Nat.mod_eq_of_lt r.isLt

-- The block held after s rotations, shifted back by s, is the home block.
lemma prevRank_iterate_add {W : ℕ} (r : Fin W) {s : ℕ} (hs : s ≤ W) :
    (((prevRank^[s] r : Fin W) : ℕ) + s) % W = (r : ℕ) := by
  rw [prevRank_iterate_val s r hs, Nat.mod_add_mod]
  have hW : 0 < W := r.pos
  have he : (r : ℕ) + (W - s) + s = (r : ℕ) + W := by omega
  rw [he, Nat.add_mod_right]
  exact Nat.mod_eq_of_lt r.isLt

lemma window_cancel {W c a b : ℕ} (ha1 : 1 ≤ a) (ha2 : a ≤ W) (hb1 : 1 ≤ b)
    (hb2 : b ≤ W) (h : (c + a) % W = (c + b) % W) : a = b := by
  have hmod : a % W = b % W := Nat.ModEq.add_left_cancel' c h
  by_cases haW : a = W
  · by_cases hbW : b = W
    · rw [haW, hbW]
    · have hb' : b < W := lt_of_le_of_ne hb2 hbW
      rw [haW, Nat.mod_self, Nat.mod_eq_of_lt hb'] at hmod
      omega
  · have ha' : a < W := lt_of_le_of_ne ha2 haW
    by_cases hbW : b = W
    · rw [hbW, Nat.mod_self, Nat.mod_eq_of_lt ha'] at hmod
      omega
    · have hb' : b < W := lt_of_le_of_ne hb2 hbW
      rwa [Nat.mod_eq_of_lt ha', Nat.mod_eq_of_lt hb'] at hmod

lemma add_mod_cancel_left' {W c a b : ℕ} (ha : a < W) (hb : b < W)
    (h : (c + a) % W = (c + b) % W) : a = b := by
  have hmod : a % W = b % W := Nat.ModEq.add_left_cancel' c h
  rwa [Nat.mod_eq_of_lt ha, Nat.mod_eq_of_lt hb] at hmod

-- The map step ↦ block visited at that step is a bijection of Fin W.
lemma srcBlock_bijective {W : ℕ} (r : Fin W) :
    Function.Bijective (fun s : Fin W => prevRank^[(s : ℕ)] r) := by
  rw [Finite.injective_iff_bijective.symm]
  intro a b hab
  have hab' : prevRank^[(a : ℕ)] r = prevRank^[(b : ℕ)] r := hab
  have h1 := prevRank_iterate_add r (le_of_lt a.isLt)
  have h2 := prevRank_iterate_add r (le_of_lt b.isLt)
  rw [hab'] at h1
  exact Fin.ext (add_mod_cancel_left' a.isLt b.isLt (h1.trans h2.symm))

-- The map step ↦ rank whose step-s contribution reaches rank r after the
-- remaining W - s relay hops is a bijection of Fin W.
lemma recvBlock_bijective {W : ℕ} (r : Fin W) :
    Function.Bijective (fun s : Fin W => prevRank^[W - (s : ℕ)] r) := by
  rw [Finite.injective_iff_bijective.symm]
  intro a b hab
  have hab' : prevRank^[W - (a : ℕ)] r = prevRank^[W - (b : ℕ)] r := hab
  have h1 := prevRank_iterate_add r (Nat.sub_le W (a : ℕ))
  have h2 := prevRank_iterate_add r (Nat.sub_le W (b : ℕ))
  rw [hab'] at h1
  have ha := a.isLt
  have hb := b.isLt
  have := window_cancel (W := W)
    (by omega : 1 ≤ W - (a : ℕ)) (Nat.sub_le W (a : ℕ))
    (by omega : 1 ≤ W - (b : ℕ)) (Nat.sub_le W (b : ℕ))
    (h1.trans h2.symm)
  exact Fin.ext (by omega)

-- At a causally visible step s ≤ r, the visited block index is r - s.
lemma prevRank_iterate_le {W : ℕ} (r : Fin W) {s : ℕ} (hs : s ≤ (r : ℕ)) :
    ((prevRank^[s] r : Fin W) : ℕ) = (r : ℕ) - s := by
  have hsW : s ≤ W := le_trans hs (le_of_lt r.isLt)
  rw [prevRank_iterate_val s r hsW]
  have hW : 0 < W := r.pos
  have he : (r : ℕ) + (W - s) = ((r : ℕ) - s) + W := by omega
  rw [he, Nat.add_mod_right]
  exact Nat.mod_eq_of_lt (by omega)

-- At a causally invisible step r < s < W, the visited block index exceeds r.
lemma prevRank_iterate_gt {W : ℕ} (r : Fin W) {s : ℕ} (hr : (r : ℕ) < s)
    (hs : s < W) : (r : ℕ) < ((prevRank^[s] r : Fin W) : ℕ) := by
  rw [prevRank_iterate_val s r (le_of_lt hs)]
  have := r.isLt
  rw [Nat.mod_eq_of_lt (by omega)]
  omega

/-! Helper lemmas: block-wise visibility matches the global causal mask. -/

lemma gvis_of_blk_lt {n b r : ℕ} (hbr : b < r) (i j : Fin n) :
    b * n + (j : ℕ) ≤ r * n + (i : ℕ) := by
  have hj : (j : ℕ) < n := j.isLt
  have h1 : b * n + (j : ℕ) < (b + 1) * n := by
    have : (b + 1) * n = b * n + n := by ring
    omega
  have h2 : (b + 1) * n ≤ r * n := Nat.mul_le_mul_right n hbr
  omega

lemma not_gvis_of_blk_gt {n b r : ℕ} (hrb : r < b) (i j : Fin n) :
    ¬ (b * n + (j : ℕ) ≤ r * n + (i : ℕ)) := by
  have hi : (i : ℕ) < n := i.isLt
  have h1 : r * n + (i : ℕ) < (r + 1) * n := by
    have : (r + 1) * n = r * n + n := by ring
    omega
  have h2 : (r + 1) * n ≤ b * n := Nat.mul_le_mul_right n hrb
  omega

-- The ring step's masked weight (0 for a causally skipped step, and inside
-- a computed step the block mask) agrees with the global causal mask of
-- the full-sequence attention at the visited block.
lemma wStep_eq_global {W n d : ℕ} (q k : Fin W → Mat n d) (sm_scale : ℝ)
    (is_causal : Bool) (r : Fin W) {s : ℕ} (hs : s < W) (i j : Fin n) :
    (if fwdVisible is_causal s (r : ℕ) = true then
        wMask (q r) (k (prevRank^[s] r)) sm_scale (fwdBlockCausal is_causal s) i j
      else 0)
    = (if gVisible is_causal r i (prevRank^[s] r) j then
        Real.exp (gScores q k sm_scale r i (prevRank^[s] r) j) else 0) := by
  cases is_causal with
  | false =>
    rw [if_pos (show fwdVisible false s (r : ℕ) = true by unfold fwdVisible; simp),
      if_pos (show gVisible false r i (prevRank^[s] r) j from fun h => Bool.noConfusion h)]
    unfold wMask
    rw [if_neg (show ¬ maskedEntry (fwdBlockCausal false s) i j by
      rintro ⟨hc, _⟩; unfold fwdBlockCausal at hc; simp at hc)]
    rfl
  | true =>
    by_cases hvis : s ≤ (r : ℕ)
    · rw [if_pos (show fwdVisible true s (r : ℕ) = true by
        unfold fwdVisible; simpa using hvis)]
      rcases Nat.eq_zero_or_pos s with hz | hpos
      · subst hz
        simp only [Function.iterate_zero, id_eq]
        unfold wMask
        by_cases hij : i < j
        · rw [if_pos (show maskedEntry (fwdBlockCausal true 0) i j from
            ⟨by unfold fwdBlockCausal; simp, hij⟩)]
          rw [if_neg (show ¬ gVisible true r i r j by
            intro hg
            have hle := (add_le_add_iff_left ((r : ℕ) * n)).mp (hg rfl)
            have hlt : (i : ℕ) < (j : ℕ) := hij
            omega)]
        · rw [if_neg (show ¬ maskedEntry (fwdBlockCausal true 0) i j from
            fun hm => hij hm.2)]
          rw [if_pos (show gVisible true r i r j by
            intro _
            have hle : (j : ℕ) ≤ (i : ℕ) := Nat.not_lt.mp (fun hc => hij hc)
            exact add_le_add_left hle _)]
          rfl
      · have hblk : ((prevRank^[s] r : Fin W) : ℕ) < (r : ℕ) := by
          rw [prevRank_iterate_le r hvis]; omega
        unfold wMask
        rw [if_neg (show ¬ maskedEntry (fwdBlockCausal true s) i j by
          rintro ⟨hc, _⟩
          unfold fwdBlockCausal at hc
          simp at hc
          omega)]
        rw [if_pos (show gVisible true r i (prevRank^[s] r) j from
          fun _ => gvis_of_blk_lt hblk i j)]
        rfl
    · rw [if_neg (show ¬ fwdVisible true s (r : ℕ) = true by
        unfold fwdVisible; simpa using hvis)]
      rw [if_neg (show ¬ gVisible true r i (prevRank^[s] r) j by
        intro hg
        exact not_gvis_of_blk_gt (prevRank_iterate_gt r (by omega) hs) i j (hg rfl))]

/-! Forward ring loop: invariant and correctness. -/

-- Partial softmax denominator accumulated by rank r after the first S
-- forward ring steps.
def Dpart {W n d : ℕ} (q k : Fin W → Mat n d) (sm_scale : ℝ) (is_causal : Bool)
    (r : Fin W) (S : ℕ) (i : Fin n) : ℝ :=
  ∑ s ∈ Finset.range S,
    if fwdVisible is_causal s (r : ℕ) = true then
      ∑ j, wMask (q r) (k (prevRank^[s] r)) sm_scale (fwdBlockCausal is_causal s) i j
    else 0

-- Partial softmax numerator (against V) accumulated after S steps.
def Npart {W n d : ℕ} (q k v : Fin W → Mat n d) (sm_scale : ℝ) (is_causal : Bool)
    (r : Fin W) (S : ℕ) (i : Fin n) (t : Fin d) : ℝ :=
  ∑ s ∈ Finset.range S,
    if fwdVisible is_causal s (r : ℕ) = true then
      ∑ j, wMask (q r) (k (prevRank^[s] r)) sm_scale (fwdBlockCausal is_causal s) i j
        * v (prevRank^[s] r) j t
    else 0

lemma fwdVisible_zero (is_causal : Bool) (rank : ℕ) :
    fwdVisible is_causal 0 rank = true := by
  unfold fwdVisible; simp

-- The ring loops always call `update_out_and_lse` with `slice_ = None`;
-- on that path it never raises and agrees with `updatePure`, the function
-- threaded through the loop embedding.
lemma update_out_and_lse_none_slice {n d : ℕ} (state : Option (Mat n d × Vec n))
    (block_out : Mat n d) (block_lse : Vec n) :
    update_out_and_lse state block_out block_lse none
      = Except.ok (updatePure state block_out block_lse) := by
  cases state with
  | none => rfl
  | some p =>
    cases p with
    | mk o l => rfl

lemma updatePure_none {n d : ℕ} (block_out : Mat n d) (block_lse : Vec n) :
    updatePure none block_out block_lse = (block_out, block_lse) := rfl

lemma updatePure_some {n d : ℕ} (o : Mat n d) (l : Vec n)
    (block_out : Mat n d) (block_lse : Vec n) :
    updatePure (some (o, l)) block_out block_lse = updateFn o l block_out block_lse := rfl

lemma Dpart_pos {W n d : ℕ} (q k : Fin W → Mat n d) (sm_scale : ℝ)
    (is_causal : Bool) (r : Fin W) {S : ℕ} (hS : 1 ≤ S) (i : Fin n) :
    0 < Dpart q k sm_scale is_causal r S i := by
  unfold Dpart
  apply Finset.sum_pos'
  · intro s _
    split_ifs
    · exact Finset.sum_nonneg fun j _ => wMask_nonneg _ _ _ _ _ _
    · exact le_refl 0
  · refine ⟨0, Finset.mem_range.mpr hS, ?_⟩
    rw [if_pos (fwdVisible_zero is_causal (r : ℕ))]
    exact sum_wMask_pos _ _ _ _ _

lemma Npart_succ {W n d : ℕ} (q k v : Fin W → Mat n d) (sm_scale : ℝ)
    (is_causal : Bool) (r : Fin W) (S : ℕ) (i : Fin n) (t : Fin d) :
    Npart q k v sm_scale is_causal r (S + 1) i t
      = Npart q k v sm_scale is_causal r S i t
        + (if fwdVisible is_causal S (r : ℕ) = true then
            ∑ j, wMask (q r) (k (prevRank^[S] r)) sm_scale (fwdBlockCausal is_causal S) i j
              * v (prevRank^[S] r) j t
          else 0) := by
  unfold Npart
  exact Finset.sum_range_succ _ _

lemma Dpart_succ {W n d : ℕ} (q k : Fin W → Mat n d) (sm_scale : ℝ)
    (is_causal : Bool) (r : Fin W) (S : ℕ) (i : Fin n) :
    Dpart q k sm_scale is_causal r (S + 1) i
      = Dpart q k sm_scale is_causal r S i
        + (if fwdVisible is_causal S (r : ℕ) = true then
            ∑ j, wMask (q r) (k (prevRank^[S] r)) sm_scale (fwdBlockCausal is_causal S) i j
          else 0) := by
  unfold Dpart
  exact Finset.sum_range_succ _ _

lemma fwdStep_acc {W n d : ℕ} (q : Fin W → Mat n d) (sm_scale : ℝ)
    (is_causal : Bool) (st : FwdState W n d) (s : ℕ) (r : Fin W) :
    (fwdStep q sm_scale is_causal st s).acc r
      = if fwdVisible is_causal s (r : ℕ) = true then
          some (updatePure (st.acc r)
            (ring_attention_forward (q r) (st.curK r) (st.curV r) sm_scale
              (fwdBlockCausal is_causal s)).1
            (ring_attention_forward (q r) (st.curK r) (st.curV r) sm_scale
              (fwdBlockCausal is_causal s)).2)
        else st.acc r := rfl

lemma fwdStep_curK {W n d : ℕ} (q : Fin W → Mat n d) (sm_scale : ℝ)
    (is_causal : Bool) (st : FwdState W n d) (s : ℕ) :
    (fwdStep q sm_scale is_causal st s).curK
      = if s + 1 ≠ W then rotate st.curK else st.curK := rfl

lemma fwdStep_curV {W n d : ℕ} (q : Fin W → Mat n d) (sm_scale : ℝ)
    (is_causal : Bool) (st : FwdState W n d) (s : ℕ) :
    (fwdStep q sm_scale is_causal st s).curV
      = if s + 1 ≠ W then rotate st.curV else st.curV := rfl

lemma fwdLoop_curK {W n d : ℕ} (q k v : Fin W → Mat n d) (sm_scale : ℝ)
    (is_causal : Bool) :
    ∀ S : ℕ, S < W →
      (fwdLoop q k v sm_scale is_causal S).curK = fun r => k (prevRank^[S] r) := by
  intro S
  induction S with
  | zero => intro _; funext r; simp [fwdLoop]
  | succ S ih =>
    intro hS
    show (fwdStep q sm_scale is_causal (fwdLoop q k v sm_scale is_causal S) S).curK = _
    rw [fwdStep_curK, if_pos (by omega : S + 1 ≠ W), ih (by omega)]
    funext r
    show k (prevRank^[S] (prevRank r)) = k (prevRank^[S + 1] r)
    rw [Function.iterate_succ_apply]

lemma fwdLoop_curV {W n d : ℕ} (q k v : Fin W → Mat n d) (sm_scale : ℝ)
    (is_causal : Bool) :
    ∀ S : ℕ, S < W →
      (fwdLoop q k v sm_scale is_causal S).curV = fun r => v (prevRank^[S] r) := by
  intro S
  induction S with
  | zero => intro _; funext r; simp [fwdLoop]
  | succ S ih =>
    intro hS
    show (fwdStep q sm_scale is_causal (fwdLoop q k v sm_scale is_causal S) S).curV = _
    rw [fwdStep_curV, if_pos (by omega : S + 1 ≠ W), ih (by omega)]
    funext r
    show v (prevRank^[S] (prevRank r)) = v (prevRank^[S + 1] r)
    rw [Function.iterate_succ_apply]

-- The forward loop invariant: after S+1 steps, each rank's running state
-- is the naive-sum partial softmax over the visible steps so far, with
-- its log-sum-exp.
lemma fwdLoop_acc {W n d : ℕ} (q k v : Fin W → Mat n d) (sm_scale : ℝ)
    (is_causal : Bool) (r : Fin W) :
    ∀ S : ℕ, S + 1 ≤ W →
      (fwdLoop q k v sm_scale is_causal (S + 1)).acc r
        = some (fun i t => Npart q k v sm_scale is_causal r (S + 1) i t
              / Dpart q k sm_scale is_causal r (S + 1) i,
            fun i => Real.log (Dpart q k sm_scale is_causal r (S + 1) i)) := by
  intro S
  induction S with
  | zero =>
    intro _
    show (fwdStep q sm_scale is_causal (fwdLoop q k v sm_scale is_causal 0) 0).acc r = _
    rw [fwdStep_acc, if_pos (fwdVisible_zero is_causal (r : ℕ))]
    show some (updatePure none _ _) = _
    rw [updatePure_none]
    refine congrArg some (Prod.ext ?_ ?_)
    · funext i t
      show (ring_attention_forward (q r) (k r) (v r) sm_scale
          (fwdBlockCausal is_causal 0)).1 i t
        = Npart q k v sm_scale is_causal r (0 + 1) i t
          / Dpart q k sm_scale is_causal r (0 + 1) i
      rw [raf_out_eq]
      unfold Npart Dpart
      rw [Finset.sum_range_one, Finset.sum_range_one,
        if_pos (fwdVisible_zero is_causal (r : ℕ)),
        if_pos (fwdVisible_zero is_causal (r : ℕ))]
      simp only [Function.iterate_zero, id_eq]
    · funext i
      show (ring_attention_forward (q r) (k r) (v r) sm_scale
          (fwdBlockCausal is_causal 0)).2 i
        = Real.log (Dpart q k sm_scale is_causal r (0 + 1) i)
      rw [raf_lse_eq]
      unfold Dpart
      rw [Finset.sum_range_one, if_pos (fwdVisible_zero is_causal (r : ℕ))]
      simp only [Function.iterate_zero, id_eq]
  | succ S ih =>
    intro hS
    show (fwdStep q sm_scale is_causal
      (fwdLoop q k v sm_scale is_causal (S + 1)) (S + 1)).acc r = _
    rw [fwdStep_acc, fwdLoop_curK q k v sm_scale is_causal (S + 1) (by omega),
      fwdLoop_curV q k v sm_scale is_causal (S + 1) (by omega), ih (by omega)]
    by_cases hvis : fwdVisible is_causal (S + 1) (r : ℕ) = true
    · rw [if_pos hvis, updatePure_some]
      have hb1 : (ring_attention_forward (q r) (k (prevRank^[S + 1] r))
          (v (prevRank^[S + 1] r)) sm_scale (fwdBlockCausal is_causal (S + 1))).1
          = fun i t => (∑ j, wMask (q r) (k (prevRank^[S + 1] r)) sm_scale
                (fwdBlockCausal is_causal (S + 1)) i j * v (prevRank^[S + 1] r) j t)
              / (∑ j, wMask (q r) (k (prevRank^[S + 1] r)) sm_scale
                (fwdBlockCausal is_causal (S + 1)) i j) := by
        funext i t; exact raf_out_eq _ _ _ _ _ i t
      have hb2 : (ring_attention_forward (q r) (k (prevRank^[S + 1] r))
          (v (prevRank^[S + 1] r)) sm_scale (fwdBlockCausal is_causal (S + 1))).2
          = fun i => Real.log (∑ j, wMask (q r) (k (prevRank^[S + 1] r)) sm_scale
              (fwdBlockCausal is_causal (S + 1)) i j) := by
        funext i; exact raf_lse_eq _ _ _ _ _ i
      rw [hb1, hb2]
      refine congrArg some (Eq.trans (updateFn_frac
        (fun i t => Npart q k v sm_scale is_causal r (S + 1) i t)
        (fun i t => ∑ j, wMask (q r) (k (prevRank^[S + 1] r)) sm_scale
          (fwdBlockCausal is_causal (S + 1)) i j * v (prevRank^[S + 1] r) j t)
        (fun i => Dpart q k sm_scale is_causal r (S + 1) i)
        (fun i => ∑ j, wMask (q r) (k (prevRank^[S + 1] r)) sm_scale
          (fwdBlockCausal is_causal (S + 1)) i j)
        (fun i => Dpart_pos q k sm_scale is_causal r (by omega) i)
        (fun i => sum_wMask_pos _ _ _ _ i)) (Prod.ext ?_ ?_))
      · funext i t
        show (Npart q k v sm_scale is_causal r (S + 1) i t
            + ∑ j, wMask (q r) (k (prevRank^[S + 1] r)) sm_scale
                (fwdBlockCausal is_causal (S + 1)) i j * v (prevRank^[S + 1] r) j t)
          / (Dpart q k sm_scale is_causal r (S + 1) i
            + ∑ j, wMask (q r) (k (prevRank^[S + 1] r)) sm_scale
                (fwdBlockCausal is_causal (S + 1)) i j)
          = Npart q k v sm_scale is_causal r (S + 1 + 1) i t
            / Dpart q k sm_scale is_causal r (S + 1 + 1) i
        conv_rhs => rw [Npart_succ, Dpart_succ]
        rw [if_pos hvis, if_pos hvis]
      · funext i
        show Real.log (Dpart q k sm_scale is_causal r (S + 1) i
            + ∑ j, wMask (q r) (k (prevRank^[S + 1] r)) sm_scale
                (fwdBlockCausal is_causal (S + 1)) i j)
          = Real.log (Dpart q k sm_scale is_causal r (S + 1 + 1) i)
        conv_rhs => rw [Dpart_succ]
        rw [if_pos hvis]
    · rw [if_neg hvis]
      refine congrArg some (Prod.ext ?_ ?_)
      · funext i t
        show Npart q k v sm_scale is_causal r (S + 1) i t
            / Dpart q k sm_scale is_causal r (S + 1) i
          = Npart q k v sm_scale is_causal r (S + 1 + 1) i t
            / Dpart q k sm_scale is_causal r (S + 1 + 1) i
        conv_rhs => rw [Npart_succ, Dpart_succ]
        rw [if_neg hvis, if_neg hvis, add_zero, add_zero]
      · funext i
        show Real.log (Dpart q k sm_scale is_causal r (S + 1) i)
          = Real.log (Dpart q k sm_scale is_causal r (S + 1 + 1) i)
        conv_rhs => rw [Dpart_succ]
        rw [if_neg hvis, add_zero]

-- The returned forward output in naive-sum form.
lemma forwardOut_part {W n d : ℕ} (q k v : Fin W → Mat n d) (sm_scale : ℝ)
    (is_causal : Bool) (r : Fin W) (i : Fin n) (t : Fin d) :
    forwardOut q k v sm_scale is_causal r i t
      = Npart q k v sm_scale is_causal r W i t
        / Dpart q k sm_scale is_causal r W i := by
  unfold forwardOut
  cases W with
  | zero => exact r.elim0
  | succ S =>
    rw [fwdLoop_acc q k v sm_scale is_causal r S (le_refl (S + 1))]
    rfl

-- The saved lse statistic in naive-sum form.
lemma forwardLse_part {W n d : ℕ} (q k v : Fin W → Mat n d) (sm_scale : ℝ)
    (is_causal : Bool) (r : Fin W) (i : Fin n) :
    forwardLse q k v sm_scale is_causal r i
      = Real.log (Dpart q k sm_scale is_causal r W i) := by
  unfold forwardLse
  cases W with
  | zero => exact r.elim0
  | succ S =>
    rw [fwdLoop_acc q k v sm_scale is_causal r S (le_refl (S + 1))]
    rfl

-- Reindexing the full loop's accumulated denominator from ring steps to
-- blocks of the concatenated sequence.
lemma Dpart_W_eq_refD {W n d : ℕ} (q k : Fin W → Mat n d) (sm_scale : ℝ)
    (is_causal : Bool) (r : Fin W) (i : Fin n) :
    Dpart q k sm_scale is_causal r W i = refD q k sm_scale is_causal r i := by
  unfold Dpart refD
  calc
    ∑ s ∈ Finset.range W,
        (if fwdVisible is_causal s (r : ℕ) = true then
          ∑ j, wMask (q r) (k (prevRank^[s] r)) sm_scale (fwdBlockCausal is_causal s) i j
        else 0)
      = ∑ s ∈ Finset.range W, ∑ j,
          (if fwdVisible is_causal s (r : ℕ) = true then
            wMask (q r) (k (prevRank^[s] r)) sm_scale (fwdBlockCausal is_causal s) i j
          else 0) := by
        refine Finset.sum_congr rfl fun s _ => ?_
        split_ifs
        · rfl
        · exact Finset.sum_const_zero.symm
    _ = ∑ s ∈ Finset.range W, ∑ j,
          (if gVisible is_causal r i (prevRank^[s] r) j then
            Real.exp (gScores q k sm_scale r i (prevRank^[s] r) j) else 0) := by
        refine Finset.sum_congr rfl fun s hs => Finset.sum_congr rfl fun j _ => ?_
        exact wStep_eq_global q k sm_scale is_causal r (Finset.mem_range.mp hs) i j
    _ = ∑ s : Fin W, ∑ j,
          (if gVisible is_causal r i (prevRank^[(s : ℕ)] r) j then
            Real.exp (gScores q k sm_scale r i (prevRank^[(s : ℕ)] r) j) else 0) :=
        (Fin.sum_univ_eq_sum_range _ W).symm
    _ = ∑ b, ∑ j, (if gVisible is_causal r i b j then
          Real.exp (gScores q k sm_scale r i b j) else 0) :=
        Fintype.sum_bijective _ (srcBlock_bijective r) _ _ (fun s => rfl)

-- Reindexing the accumulated numerator from ring steps to blocks.
lemma Npart_W_eq_refNum {W n d : ℕ} (q k v : Fin W → Mat n d) (sm_scale : ℝ)
    (is_causal : Bool) (r : Fin W) (i : Fin n) (t : Fin d) :
    Npart q k v sm_scale is_causal r W i t
      = refNum q k v sm_scale is_causal r i t := by
  unfold Npart refNum
  calc
    ∑ s ∈ Finset.range W,
        (if fwdVisible is_causal s (r : ℕ) = true then
          ∑ j, wMask (q r) (k (prevRank^[s] r)) sm_scale (fwdBlockCausal is_causal s) i j
            * v (prevRank^[s] r) j t
        else 0)
      = ∑ s ∈ Finset.range W, ∑ j,
          (if gVisible is_causal r i (prevRank^[s] r) j then
            Real.exp (gScores q k sm_scale r i (prevRank^[s] r) j)
              * v (prevRank^[s] r) j t else 0) := by
        refine Finset.sum_congr rfl fun s hs => ?_
        have hs' := Finset.mem_range.mp hs
        calc
          (if fwdVisible is_causal s (r : ℕ) = true then
            ∑ j, wMask (q r) (k (prevRank^[s] r)) sm_scale (fwdBlockCausal is_causal s) i j
              * v (prevRank^[s] r) j t
          else 0)
            = ∑ j, (if fwdVisible is_causal s (r : ℕ) = true then
                wMask (q r) (k (prevRank^[s] r)) sm_scale (fwdBlockCausal is_causal s) i j
              else 0) * v (prevRank^[s] r) j t := by
              split_ifs with h
              · rfl
              · symm
                refine Finset.sum_eq_zero fun j _ => ?_
                rw [zero_mul]
          _ = ∑ j, (if gVisible is_causal r i (prevRank^[s] r) j then
                Real.exp (gScores q k sm_scale r i (prevRank^[s] r) j)
                  * v (prevRank^[s] r) j t else 0) := by
              refine Finset.sum_congr rfl fun j _ => ?_
              rw [wStep_eq_global q k sm_scale is_causal r hs' i j, ite_mul, zero_mul]
    _ = ∑ s : Fin W, ∑ j,
          (if gVisible is_causal r i (prevRank^[(s : ℕ)] r) j then
            Real.exp (gScores q k sm_scale r i (prevRank^[(s : ℕ)] r) j)
              * v (prevRank^[(s : ℕ)] r) j t else 0) :=
        (Fin.sum_univ_eq_sum_range _ W).symm
    _ = ∑ b, ∑ j, (if gVisible is_causal r i b j then
          Real.exp (gScores q k sm_scale r i b j) * v b j t else 0) :=
        Fintype.sum_bijective _ (srcBlock_bijective r) _ _ (fun s => rfl)

lemma refD_pos {W n d : ℕ} (q k : Fin W → Mat n d) (sm_scale : ℝ)
    (is_causal : Bool) (r : Fin W) (i : Fin n) :
    0 < refD q k sm_scale is_causal r i := by
  unfold refD
  apply Finset.sum_pos'
  · intro b _
    refine Finset.sum_nonneg fun j _ => ?_
    split_ifs
    · exact (Real.exp_pos _).le
    · exact le_refl 0
  · refine ⟨r, Finset.mem_univ r, Finset.sum_pos' ?_ ⟨i, Finset.mem_univ i, ?_⟩⟩
    · intro j _
      split_ifs
      · exact (Real.exp_pos _).le
      · exact le_refl 0
    · rw [if_pos (show gVisible is_causal r i r i from fun _ => le_refl _)]
      exact Real.exp_pos _

-- The forward pass is exact: each rank returns its rows of the
-- single-worker full-sequence attention output.
lemma forward_correct {W n d : ℕ} (q k v : Fin W → Mat n d) (sm_scale : ℝ)
    (is_causal : Bool) (r : Fin W) (i : Fin n) (t : Fin d) :
    forwardOut q k v sm_scale is_causal r i t
      = refOut q k v sm_scale is_causal r i t := by
  rw [forwardOut_part, Npart_W_eq_refNum, Dpart_W_eq_refD]
  rfl

-- The saved lse is the full-sequence log-sum-exp.
lemma forwardLse_correct {W n d : ℕ} (q k v : Fin W → Mat n d) (sm_scale : ℝ)
    (is_causal : Bool) (r : Fin W) (i : Fin n) :
    forwardLse q k v sm_scale is_causal r i
      = refLse q k sm_scale is_causal r i := by
  rw [forwardLse_part, Dpart_W_eq_refD]
  rfl

/-! Backward ring loop: invariants and correctness. -/

-- The gradient contribution rank ρ computes at backward step s: the block
-- kernel applied to its own query/output-gradient rows and the K/V block
-- it holds at that step, with the saved forward out and lse.
def blockB {W n d : ℕ} (q k v dout : Fin W → Mat n d) (sm_scale : ℝ)
    (is_causal : Bool) (ρ : Fin W) (s : ℕ) : Mat n d × Mat n d × Mat n d :=
  ring_attention_backward (dout ρ) (q ρ) (k (prevRank^[s] ρ)) (v (prevRank^[s] ρ))
    (forwardOut q k v sm_scale is_causal ρ) (forwardLse q k v sm_scale is_causal ρ)
    sm_scale (bwdBlockCausal is_causal s)

lemma bwdVisible_zero (is_causal : Bool) (rank : ℕ) :
    bwdVisible is_causal 0 rank = true := by
  unfold bwdVisible; simp

lemma bwdVisible_eq_fwdVisible (is_causal : Bool) (s rank : ℕ) :
    bwdVisible is_causal s rank = fwdVisible is_causal s rank := by
  unfold bwdVisible fwdVisible
  exact Bool.or_comm _ _

lemma bwdStep_dq {W n d : ℕ} (dout q out : Fin W → Mat n d) (lse : Fin W → Vec n)
    (sm_scale : ℝ) (is_causal : Bool) (st : BwdState W n d) (s : ℕ) (r : Fin W) :
    (bwdStep dout q out lse sm_scale is_causal st s).dq r
      = if bwdVisible is_causal s (r : ℕ) = true then
          if st.dq r = none then
            some (ring_attention_backward (dout r) (q r) (st.curK r) (st.curV r)
              (out r) (lse r) sm_scale (bwdBlockCausal is_causal s)).1
          else
            some (fun i t => (st.dq r).getD 0 i t
              + (ring_attention_backward (dout r) (q r) (st.curK r) (st.curV r)
                (out r) (lse r) sm_scale (bwdBlockCausal is_causal s)).1 i t)
        else st.dq r := rfl

lemma bwdStep_dk {W n d : ℕ} (dout q out : Fin W → Mat n d) (lse : Fin W → Vec n)
    (sm_scale : ℝ) (is_causal : Bool) (st : BwdState W n d) (s : ℕ) (r : Fin W) :
    (bwdStep dout q out lse sm_scale is_causal st s).dk r
      = if bwdVisible is_causal s (r : ℕ) = true then
          if st.dq r = none then
            some (ring_attention_backward (dout r) (q r) (st.curK r) (st.curV r)
              (out r) (lse r) sm_scale (bwdBlockCausal is_causal s)).2.1
          else
            some (fun j t =>
              (ring_attention_backward (dout r) (q r) (st.curK r) (st.curV r)
                (out r) (lse r) sm_scale (bwdBlockCausal is_causal s)).2.1 j t
              + (st.dk (prevRank r)).getD 0 j t)
        else if s ≠ 0 then st.dk (prevRank r)
        else st.dk r := rfl

lemma bwdStep_dv {W n d : ℕ} (dout q out : Fin W → Mat n d) (lse : Fin W → Vec n)
    (sm_scale : ℝ) (is_causal : Bool) (st : BwdState W n d) (s : ℕ) (r : Fin W) :
    (bwdStep dout q out lse sm_scale is_causal st s).dv r
      = if bwdVisible is_causal s (r : ℕ) = true then
          if st.dq r = none then
            some (ring_attention_backward (dout r) (q r) (st.curK r) (st.curV r)
              (out r) (lse r) sm_scale (bwdBlockCausal is_causal s)).2.2
          else
            some (fun j t =>
              (ring_attention_backward (dout r) (q r) (st.curK r) (st.curV r)
                (out r) (lse r) sm_scale (bwdBlockCausal is_causal s)).2.2 j t
              + (st.dv (prevRank r)).getD 0 j t)
        else if s ≠ 0 then st.dv (prevRank r)
        else st.dv r := rfl

lemma bwdStep_curK {W n d : ℕ} (dout q out : Fin W → Mat n d) (lse : Fin W → Vec n)
    (sm_scale : ℝ) (is_causal : Bool) (st : BwdState W n d) (s : ℕ) :
    (bwdStep dout q out lse sm_scale is_causal st s).curK
      = if s + 1 ≠ W then rotate st.curK else st.curK := rfl

lemma bwdStep_curV {W n d : ℕ} (dout q out : Fin W → Mat n d) (lse : Fin W → Vec n)
    (sm_scale : ℝ) (is_causal : Bool) (st : BwdState W n d) (s : ℕ) :
    (bwdStep dout q out lse sm_scale is_causal st s).curV
      = if s + 1 ≠ W then rotate st.curV else st.curV := rfl

lemma bwdLoop_curK_apply {W n d : ℕ} (q k v dout : Fin W → Mat n d)
    (sm_scale : ℝ) (is_causal : Bool) :
    ∀ S : ℕ, S < W → ∀ ρ : Fin W,
      (bwdLoop q k v sm_scale is_causal dout S).curK ρ = k (prevRank^[S] ρ) := by
  intro S
  induction S with
  | zero => intro _ ρ; simp [bwdLoop]
  | succ S ih =>
    intro hS ρ
    show (bwdStep dout q _ _ sm_scale is_causal
      (bwdLoop q k v sm_scale is_causal dout S) S).curK ρ = _
    rw [bwdStep_curK, if_pos (by omega : S + 1 ≠ W)]
    show (bwdLoop q k v sm_scale is_causal dout S).curK (prevRank ρ) = _
    rw [ih (by omega) (prevRank ρ), Function.iterate_succ_apply]

lemma bwdLoop_curV_apply {W n d : ℕ} (q k v dout : Fin W → Mat n d)
    (sm_scale : ℝ) (is_causal : Bool) :
    ∀ S : ℕ, S < W → ∀ ρ : Fin W,
      (bwdLoop q k v sm_scale is_causal dout S).curV ρ = v (prevRank^[S] ρ) := by
  intro S
  induction S with
  | zero => intro _ ρ; simp [bwdLoop]
  | succ S ih =>
    intro hS ρ
    show (bwdStep dout q _ _ sm_scale is_causal
      (bwdLoop q k v sm_scale is_causal dout S) S).curV ρ = _
    rw [bwdStep_curV, if_pos (by omega : S + 1 ≠ W)]
    show (bwdLoop q k v sm_scale is_causal dout S).curV (prevRank ρ) = _
    rw [ih (by omega) (prevRank ρ), Function.iterate_succ_apply]

-- The locally accumulated dq after S+1 backward steps is the sum of the
-- visible block contributions.
lemma bwdLoop_dq {W n d : ℕ} (q k v dout : Fin W → Mat n d) (sm_scale : ℝ)
    (is_causal : Bool) :
    ∀ S : ℕ, S + 1 ≤ W → ∀ ρ : Fin W,
      (bwdLoop q k v sm_scale is_causal dout (S + 1)).dq ρ
        = some (fun i t => ∑ s ∈ Finset.range (S + 1),
            if bwdVisible is_causal s (ρ : ℕ) = true then
              (blockB q k v dout sm_scale is_causal ρ s).1 i t
            else 0) := by
  intro S
  induction S with
  | zero =>
    intro _ ρ
    show (bwdStep dout q _ _ sm_scale is_causal
      (bwdLoop q k v sm_scale is_causal dout 0) 0).dq ρ = _
    rw [bwdStep_dq, if_pos (bwdVisible_zero is_causal (ρ : ℕ)),
      if_pos (show (bwdLoop q k v sm_scale is_causal dout 0).dq ρ = none from rfl)]
    refine congrArg some ?_
    funext i t
    rw [Finset.sum_range_one, if_pos (bwdVisible_zero is_causal (ρ : ℕ))]
    rfl
  | succ S ih =>
    intro hS ρ
    show (bwdStep dout q _ _ sm_scale is_causal
      (bwdLoop q k v sm_scale is_causal dout (S + 1)) (S + 1)).dq ρ = _
    rw [bwdStep_dq]
    by_cases hv : bwdVisible is_causal (S + 1) (ρ : ℕ) = true
    · rw [if_pos hv, ih (by omega) ρ,
        if_neg (Option.some_ne_none _), Option.getD_some,
        bwdLoop_curK_apply q k v dout sm_scale is_causal (S + 1) (by omega) ρ,
        bwdLoop_curV_apply q k v dout sm_scale is_causal (S + 1) (by omega) ρ]
      refine congrArg some ?_
      funext i t
      conv_rhs => rw [Finset.sum_range_succ]
      rw [if_pos hv]
      rfl
    · rw [if_neg hv, ih (by omega) ρ]
      refine congrArg some ?_
      funext i t
      conv_rhs => rw [Finset.sum_range_succ]
      rw [if_neg hv, add_zero]

-- The accumulated dk travelling on the gradient channel: after S+1 steps
-- the dk held by rank ρ is the sum of the visible contributions computed
-- at step s by the rank whose chain reaches ρ after the remaining S - s
-- relay hops; all those contributions concern the same K block.
lemma bwdLoop_dk_inv {W n d : ℕ} (q k v dout : Fin W → Mat n d) (sm_scale : ℝ)
    (is_causal : Bool) :
    ∀ S : ℕ, S + 1 ≤ W → ∀ ρ : Fin W,
      (bwdLoop q k v sm_scale is_causal dout (S + 1)).dk ρ
        = some (fun j t => ∑ s ∈ Finset.range (S + 1),
            if bwdVisible is_causal s ((prevRank^[S - s] ρ : Fin W) : ℕ) = true then
              (blockB q k v dout sm_scale is_causal (prevRank^[S - s] ρ) s).2.1 j t
            else 0) := by
  intro S
  induction S with
  | zero =>
    intro _ ρ
    show (bwdStep dout q _ _ sm_scale is_causal
      (bwdLoop q k v sm_scale is_causal dout 0) 0).dk ρ = _
    rw [bwdStep_dk, if_pos (bwdVisible_zero is_causal (ρ : ℕ)),
      if_pos (show (bwdLoop q k v sm_scale is_causal dout 0).dq ρ = none from rfl)]
    refine congrArg some ?_
    funext j t
    rw [Finset.sum_range_one]
    rw [if_pos (show bwdVisible is_causal 0 ((prevRank^[0 - 0] ρ : Fin W) : ℕ) = true
      from bwdVisible_zero is_causal _)]
    rfl
  | succ S ih =>
    intro hS ρ
    show (bwdStep dout q _ _ sm_scale is_causal
      (bwdLoop q k v sm_scale is_causal dout (S + 1)) (S + 1)).dk ρ = _
    rw [bwdStep_dk]
    by_cases hv : bwdVisible is_causal (S + 1) (ρ : ℕ) = true
    · rw [if_pos hv, bwdLoop_dq q k v dout sm_scale is_causal S (by omega) ρ,
        if_neg (Option.some_ne_none _),
        ih (by omega) (prevRank ρ), Option.getD_some,
        bwdLoop_curK_apply q k v dout sm_scale is_causal (S + 1) (by omega) ρ,
        bwdLoop_curV_apply q k v dout sm_scale is_causal (S + 1) (by omega) ρ]
      refine congrArg some ?_
      funext j t
      conv_rhs => rw [Finset.sum_range_succ]
      have hterm : (if bwdVisible is_causal (S + 1)
            ((prevRank^[S + 1 - (S + 1)] ρ : Fin W) : ℕ) = true then
            (blockB q k v dout sm_scale is_causal (prevRank^[S + 1 - (S + 1)] ρ)
              (S + 1)).2.1 j t
          else 0)
          = (blockB q k v dout sm_scale is_causal ρ (S + 1)).2.1 j t := by
        rw [Nat.sub_self]
        simp only [Function.iterate_zero, id_eq]
        rw [if_pos hv]
      rw [hterm]
      have hsum : (∑ s ∈ Finset.range (S + 1),
            if bwdVisible is_causal s ((prevRank^[S + 1 - s] ρ : Fin W) : ℕ) = true then
              (blockB q k v dout sm_scale is_causal (prevRank^[S + 1 - s] ρ) s).2.1 j t
            else 0)
          = ∑ s ∈ Finset.range (S + 1),
            if bwdVisible is_causal s
                ((prevRank^[S - s] (prevRank ρ) : Fin W) : ℕ) = true then
              (blockB q k v dout sm_scale is_causal (prevRank^[S - s] (prevRank ρ)) s).2.1 j t
            else 0 := by
        refine Finset.sum_congr rfl fun s hs => ?_
        have hs' : s ≤ S := by
          have := Finset.mem_range.mp hs
          omega
        have hiter : prevRank^[S + 1 - s] ρ = prevRank^[S - s] (prevRank ρ) := by
          have he : S + 1 - s = (S - s) + 1 := by omega
          rw [he, Function.iterate_succ_apply]
        rw [hiter]
      rw [hsum]
      exact add_comm _ _
    · rw [if_neg hv, if_pos (show S + 1 ≠ 0 by omega),
        ih (by omega) (prevRank ρ)]
      refine congrArg some ?_
      funext j t
      conv_rhs => rw [Finset.sum_range_succ]
      have hterm : (if bwdVisible is_causal (S + 1)
            ((prevRank^[S + 1 - (S + 1)] ρ : Fin W) : ℕ) = true then
            (blockB q k v dout sm_scale is_causal (prevRank^[S + 1 - (S + 1)] ρ)
              (S + 1)).2.1 j t
          else 0) = 0 := by
        rw [Nat.sub_self]
        simp only [Function.iterate_zero, id_eq]
        rw [if_neg hv]
      rw [hterm, add_zero]
      have hsum : (∑ s ∈ Finset.range (S + 1),
            if bwdVisible is_causal s ((prevRank^[S + 1 - s] ρ : Fin W) : ℕ) = true then
              (blockB q k v dout sm_scale is_causal (prevRank^[S + 1 - s] ρ) s).2.1 j t
            else 0)
          = ∑ s ∈ Finset.range (S + 1),
            if bwdVisible is_causal s
                ((prevRank^[S - s] (prevRank ρ) : Fin W) : ℕ) = true then
              (blockB q k v dout sm_scale is_causal (prevRank^[S - s] (prevRank ρ)) s).2.1 j t
            else 0 := by
        refine Finset.sum_congr rfl fun s hs => ?_
        have hs' : s ≤ S := by
          have := Finset.mem_range.mp hs
          omega
        have hiter : prevRank^[S + 1 - s] ρ = prevRank^[S - s] (prevRank ρ) := by
          have he : S + 1 - s = (S - s) + 1 := by omega
          rw [he, Function.iterate_succ_apply]
        rw [hiter]
      rw [hsum]

-- The same relay invariant for dv.
lemma bwdLoop_dv_inv {W n d : ℕ} (q k v dout : Fin W → Mat n d) (sm_scale : ℝ)
    (is_causal : Bool) :
    ∀ S : ℕ, S + 1 ≤ W → ∀ ρ : Fin W,
      (bwdLoop q k v sm_scale is_causal dout (S + 1)).dv ρ
        = some (fun j t => ∑ s ∈ Finset.range (S + 1),
            if bwdVisible is_causal s ((prevRank^[S - s] ρ : Fin W) : ℕ) = true then
              (blockB q k v dout sm_scale is_causal (prevRank^[S - s] ρ) s).2.2 j t
            else 0) := by
  intro S
  induction S with
  | zero =>
    intro _ ρ
    show (bwdStep dout q _ _ sm_scale is_causal
      (bwdLoop q k v sm_scale is_causal dout 0) 0).dv ρ = _
    rw [bwdStep_dv, if_pos (bwdVisible_zero is_causal (ρ : ℕ)),
      if_pos (show (bwdLoop q k v sm_scale is_causal dout 0).dq ρ = none from rfl)]
    refine congrArg some ?_
    funext j t
    rw [Finset.sum_range_one]
    rw [if_pos (show bwdVisible is_causal 0 ((prevRank^[0 - 0] ρ : Fin W) : ℕ) = true
      from bwdVisible_zero is_causal _)]
    rfl
  | succ S ih =>
    intro hS ρ
    show (bwdStep dout q _ _ sm_scale is_causal
      (bwdLoop q k v sm_scale is_causal dout (S + 1)) (S + 1)).dv ρ = _
    rw [bwdStep_dv]
    by_cases hv : bwdVisible is_causal (S + 1) (ρ : ℕ) = true
    · rw [if_pos hv, bwdLoop_dq q k v dout sm_scale is_causal S (by omega) ρ,
        if_neg (Option.some_ne_none _),
        ih (by omega) (prevRank ρ), Option.getD_some,
        bwdLoop_curK_apply q k v dout sm_scale is_causal (S + 1) (by omega) ρ,
        bwdLoop_curV_apply q k v dout sm_scale is_causal (S + 1) (by omega) ρ]
      refine congrArg some ?_
      funext j t
      conv_rhs => rw [Finset.sum_range_succ]
      have hterm : (if bwdVisible is_causal (S + 1)
            ((prevRank^[S + 1 - (S + 1)] ρ : Fin W) : ℕ) = true then
            (blockB q k v dout sm_scale is_causal (prevRank^[S + 1 - (S + 1)] ρ)
              (S + 1)).2.2 j t
          else 0)
          = (blockB q k v dout sm_scale is_causal ρ (S + 1)).2.2 j t := by
        rw [Nat.sub_self]
        simp only [Function.iterate_zero, id_eq]
        rw [if_pos hv]
      rw [hterm]
      have hsum : (∑ s ∈ Finset.range (S + 1),
            if bwdVisible is_causal s ((prevRank^[S + 1 - s] ρ : Fin W) : ℕ) = true then
              (blockB q k v dout sm_scale is_causal (prevRank^[S + 1 - s] ρ) s).2.2 j t
            else 0)
          = ∑ s ∈ Finset.range (S + 1),
            if bwdVisible is_causal s
                ((prevRank^[S - s] (prevRank ρ) : Fin W) : ℕ) = true then
              (blockB q k v dout sm_scale is_causal (prevRank^[S - s] (prevRank ρ)) s).2.2 j t
            else 0 := by
        refine Finset.sum_congr rfl fun s hs => ?_
        have hs' : s ≤ S := by
          have := Finset.mem_range.mp hs
          omega
        have hiter : prevRank^[S + 1 - s] ρ = prevRank^[S - s] (prevRank ρ) := by
          have he : S + 1 - s = (S - s) + 1 := by omega
          rw [he, Function.iterate_succ_apply]
        rw [hiter]
      rw [hsum]
      exact add_comm _ _
    · rw [if_neg hv, if_pos (show S + 1 ≠ 0 by omega),
        ih (by omega) (prevRank ρ)]
      refine congrArg some ?_
      funext j t
      conv_rhs => rw [Finset.sum_range_succ]
      have hterm : (if bwdVisible is_causal (S + 1)
            ((prevRank^[S + 1 - (S + 1)] ρ : Fin W) : ℕ) = true then
            (blockB q k v dout sm_scale is_causal (prevRank^[S + 1 - (S + 1)] ρ)
              (S + 1)).2.2 j t
          else 0) = 0 := by
        rw [Nat.sub_self]
        simp only [Function.iterate_zero, id_eq]
        rw [if_neg hv]
      rw [hterm, add_zero]
      have hsum : (∑ s ∈ Finset.range (S + 1),
            if bwdVisible is_causal s ((prevRank^[S + 1 - s] ρ : Fin W) : ℕ) = true then
              (blockB q k v dout sm_scale is_causal (prevRank^[S + 1 - s] ρ) s).2.2 j t
            else 0)
          = ∑ s ∈ Finset.range (S + 1),
            if bwdVisible is_causal s
                ((prevRank^[S - s] (prevRank ρ) : Fin W) : ℕ) = true then
              (blockB q k v dout sm_scale is_causal (prevRank^[S - s] (prevRank ρ)) s).2.2 j t
            else 0 := by
        refine Finset.sum_congr rfl fun s hs => ?_
        have hs' : s ≤ S := by
          have := Finset.mem_range.mp hs
          omega
        have hiter : prevRank^[S + 1 - s] ρ = prevRank^[S - s] (prevRank ρ) := by
          have he : S + 1 - s = (S - s) + 1 := by omega
          rw [he, Function.iterate_succ_apply]
        rw [hiter]
      rw [hsum]

lemma bwdBlockCausal_eq_fwd (is_causal : Bool) (s : ℕ) :
    bwdBlockCausal is_causal s = fwdBlockCausal is_causal s := rfl

-- The attention probabilities the backward kernel reconstructs from the
-- saved lse at a visible step are exactly the full-sequence probabilities
-- at the visited block (and a skipped step's block has probability zero).
lemma bwdP_eq_refP {W n d : ℕ} (q k v : Fin W → Mat n d) (sm_scale : ℝ)
    (is_causal : Bool) (ρ : Fin W) {s : ℕ} (hs : s < W) (i j : Fin n) :
    (if bwdVisible is_causal s (ρ : ℕ) = true then
        bwdP (q ρ) (k (prevRank^[s] ρ)) sm_scale (forwardLse q k v sm_scale is_causal ρ)
          (bwdBlockCausal is_causal s) i j
      else 0)
    = refP q k sm_scale is_causal ρ i (prevRank^[s] ρ) j := by
  rw [bwdVisible_eq_fwdVisible, bwdBlockCausal_eq_fwd]
  calc
    (if fwdVisible is_causal s (ρ : ℕ) = true then
        bwdP (q ρ) (k (prevRank^[s] ρ)) sm_scale (forwardLse q k v sm_scale is_causal ρ)
          (fwdBlockCausal is_causal s) i j
      else 0)
      = (if fwdVisible is_causal s (ρ : ℕ) = true then
          wMask (q ρ) (k (prevRank^[s] ρ)) sm_scale (fwdBlockCausal is_causal s) i j
        else 0) * Real.exp (-(refLse q k sm_scale is_causal ρ i)) := by
        by_cases hv : fwdVisible is_causal s (ρ : ℕ) = true
        · rw [if_pos hv, if_pos hv]
          unfold bwdP wMask
          rw [forwardLse_correct]
          split_ifs with hm
          · rw [zero_mul]
          · rw [Real.exp_sub, div_eq_mul_inv, Real.exp_neg]
        · rw [if_neg hv, if_neg hv, zero_mul]
    _ = (if gVisible is_causal ρ i (prevRank^[s] ρ) j then
          Real.exp (gScores q k sm_scale ρ i (prevRank^[s] ρ) j) else 0)
          * Real.exp (-(refLse q k sm_scale is_causal ρ i)) := by
        rw [wStep_eq_global q k sm_scale is_causal ρ hs i j]
    _ = refP q k sm_scale is_causal ρ i (prevRank^[s] ρ) j := by
        unfold refP
        split_ifs with hg
        · rw [Real.exp_sub, div_eq_mul_inv, Real.exp_neg]
        · rw [zero_mul]

-- The backward kernel's masked dS at a visible step equals the global dS
-- at the visited block; a skipped step's block has global dS zero.
lemma bwdDS_eq_refdS {W n d : ℕ} (q k v dout : Fin W → Mat n d) (sm_scale : ℝ)
    (is_causal : Bool) (ρ : Fin W) {s : ℕ} (hs : s < W) (i j : Fin n) :
    (if bwdVisible is_causal s (ρ : ℕ) = true then
        bwdDS (dout ρ) (q ρ) (k (prevRank^[s] ρ)) (v (prevRank^[s] ρ))
          (forwardOut q k v sm_scale is_causal ρ) (forwardLse q k v sm_scale is_causal ρ)
          sm_scale (bwdBlockCausal is_causal s) i j
      else 0)
    = refdS q k v sm_scale is_causal dout ρ i (prevRank^[s] ρ) j := by
  have hP := bwdP_eq_refP q k v sm_scale is_causal ρ hs i j
  have hrow : bwdDrow (dout ρ) (forwardOut q k v sm_scale is_causal ρ) i
      = refDrow q k v sm_scale is_causal dout ρ i := by
    unfold bwdDrow refDrow
    exact Finset.sum_congr rfl fun t _ => by rw [forward_correct]
  unfold refdS
  rw [← hP]
  by_cases hv : bwdVisible is_causal s (ρ : ℕ) = true
  · rw [if_pos hv, if_pos hv]
    unfold bwdDS
    split_ifs with hm
    · unfold bwdP
      rw [if_pos hm, zero_mul]
    · rw [hrow]
      rfl
  · rw [if_neg hv, if_neg hv, zero_mul]

-- dQ correctness: the locally accumulated dq is the analytic dQ = dS·K·scale
-- of the full-sequence attention, restricted to the rank's query block.
lemma backward_dq_correct {W n d : ℕ} (q k v dout : Fin W → Mat n d)
    (sm_scale : ℝ) (is_causal : Bool) (r : Fin W) (i : Fin n) (t : Fin d) :
    backwardDQ q k v sm_scale is_causal dout r i t
      = refdQ q k v sm_scale is_causal dout r i t := by
  unfold backwardDQ
  cases W with
  | zero => exact r.elim0
  | succ S =>
    rw [bwdLoop_dq q k v dout sm_scale is_causal S (le_refl (S + 1)) r,
      Option.getD_some]
    show (∑ s ∈ Finset.range (S + 1),
        if bwdVisible is_causal s (r : ℕ) = true then
          (blockB q k v dout sm_scale is_causal r s).1 i t
        else 0)
      = refdQ q k v sm_scale is_causal dout r i t
    have hterm : ∀ s ∈ Finset.range (S + 1),
        (if bwdVisible is_causal s (r : ℕ) = true then
          (blockB q k v dout sm_scale is_causal r s).1 i t
        else 0)
        = (∑ j, refdS q k v sm_scale is_causal dout r i (prevRank^[s] r) j
            * k (prevRank^[s] r) j t) * sm_scale := by
      intro s hs
      have hs' : s < S + 1 := Finset.mem_range.mp hs
      by_cases hv : bwdVisible is_causal s (r : ℕ) = true
      · rw [if_pos hv]
        show (∑ j, bwdDS (dout r) (q r) (k (prevRank^[s] r)) (v (prevRank^[s] r))
            (forwardOut q k v sm_scale is_causal r) (forwardLse q k v sm_scale is_causal r)
            sm_scale (bwdBlockCausal is_causal s) i j * k (prevRank^[s] r) j t) * sm_scale = _
        congr 1
        refine Finset.sum_congr rfl fun j _ => ?_
        congr 1
        have h := bwdDS_eq_refdS q k v dout sm_scale is_causal r hs' i j
        rw [if_pos hv] at h
        exact h
      · rw [if_neg hv]
        symm
        have hz : ∀ j, refdS q k v sm_scale is_causal dout r i (prevRank^[s] r) j = 0 := by
          intro j
          have h := bwdDS_eq_refdS q k v dout sm_scale is_causal r hs' i j
          rw [if_neg hv] at h
          exact h.symm
        rw [Finset.sum_eq_zero (fun j _ => by rw [hz j, zero_mul]), zero_mul]
    rw [Finset.sum_congr rfl hterm]
    unfold refdQ
    rw [Finset.sum_mul,
      ← Fin.sum_univ_eq_sum_range (fun s =>
        (∑ j, refdS q k v sm_scale is_causal dout r i (prevRank^[s] r) j
          * k (prevRank^[s] r) j t) * sm_scale) (S + 1)]
    exact Fintype.sum_bijective _ (srcBlock_bijective r) _ _ (fun s => rfl)

-- dK correctness: the dk delivered to rank r by the gradient channel's
-- final rotation is the analytic dK = dSᵀ·Q·scale of the full-sequence
-- attention at the K block rank r originally owned.
lemma backward_dk_correct {W n d : ℕ} (q k v dout : Fin W → Mat n d)
    (sm_scale : ℝ) (is_causal : Bool) (r : Fin W) (j : Fin n) (t : Fin d) :
    backwardDK q k v sm_scale is_causal dout r j t
      = refdK q k v sm_scale is_causal dout r j t := by
  unfold backwardDK
  cases W with
  | zero => exact r.elim0
  | succ S =>
    rw [bwdLoop_dk_inv q k v dout sm_scale is_causal S (le_refl (S + 1)) (prevRank r),
      Option.getD_some]
    show (∑ s ∈ Finset.range (S + 1),
        if bwdVisible is_causal s ((prevRank^[S - s] (prevRank r) : Fin (S + 1)) : ℕ) = true then
          (blockB q k v dout sm_scale is_causal (prevRank^[S - s] (prevRank r)) s).2.1 j t
        else 0)
      = refdK q k v sm_scale is_causal dout r j t
    have hterm : ∀ s ∈ Finset.range (S + 1),
        (if bwdVisible is_causal s ((prevRank^[S - s] (prevRank r) : Fin (S + 1)) : ℕ) = true then
          (blockB q k v dout sm_scale is_causal (prevRank^[S - s] (prevRank r)) s).2.1 j t
        else 0)
        = (∑ i, refdS q k v sm_scale is_causal dout (prevRank^[S + 1 - s] r) i r j
            * q (prevRank^[S + 1 - s] r) i t) * sm_scale := by
      intro s hs
      have hs' : s < S + 1 := Finset.mem_range.mp hs
      have hre : prevRank^[S - s] (prevRank r) = prevRank^[S + 1 - s] r := by
        have he : S + 1 - s = (S - s) + 1 := by omega
        rw [he, Function.iterate_succ_apply]
      rw [hre]
      have hblk : prevRank^[s] (prevRank^[S + 1 - s] r) = r := by
        rw [← Function.iterate_add_apply]
        have he : s + (S + 1 - s) = S + 1 := by omega
        rw [he]
        exact prevRank_iterate_W r
      by_cases hv : bwdVisible is_causal s ((prevRank^[S + 1 - s] r : Fin (S + 1)) : ℕ) = true
      · rw [if_pos hv]
        show (∑ i, bwdDS (dout (prevRank^[S + 1 - s] r)) (q (prevRank^[S + 1 - s] r))
            (k (prevRank^[s] (prevRank^[S + 1 - s] r)))
            (v (prevRank^[s] (prevRank^[S + 1 - s] r)))
            (forwardOut q k v sm_scale is_causal (prevRank^[S + 1 - s] r))
            (forwardLse q k v sm_scale is_causal (prevRank^[S + 1 - s] r))
            sm_scale (bwdBlockCausal is_causal s) i j
          * q (prevRank^[S + 1 - s] r) i t) * sm_scale = _
        rw [hblk]
        congr 1
        refine Finset.sum_congr rfl fun i _ => ?_
        congr 1
        have h := bwdDS_eq_refdS q k v dout sm_scale is_causal (prevRank^[S + 1 - s] r) hs' i j
        rw [if_pos hv, hblk] at h
        exact h
      · rw [if_neg hv]
        symm
        have hz : ∀ i, refdS q k v sm_scale is_causal dout (prevRank^[S + 1 - s] r) i r j = 0 := by
          intro i
          have h := bwdDS_eq_refdS q k v dout sm_scale is_causal (prevRank^[S + 1 - s] r) hs' i j
          rw [if_neg hv, hblk] at h
          exact h.symm
        rw [Finset.sum_eq_zero (fun i _ => by rw [hz i, zero_mul]), zero_mul]
    rw [Finset.sum_congr rfl hterm]
    unfold refdK
    rw [Finset.sum_mul,
      ← Fin.sum_univ_eq_sum_range (fun s =>
        (∑ i, refdS q k v sm_scale is_causal dout (prevRank^[S + 1 - s] r) i r j
          * q (prevRank^[S + 1 - s] r) i t) * sm_scale) (S + 1)]
    exact Fintype.sum_bijective _ (recvBlock_bijective r) _ _ (fun s => rfl)

-- dV correctness: the dv delivered to rank r is the analytic dV = Pᵗ·dO of
-- the full-sequence attention at the V block rank r originally owned.
lemma backward_dv_correct {W n d : ℕ} (q k v dout : Fin W → Mat n d)
    (sm_scale : ℝ) (is_causal : Bool) (r : Fin W) (j : Fin n) (t : Fin d) :
    backwardDV q k v sm_scale is_causal dout r j t
      = refdV q k sm_scale is_causal dout r j t := by
  unfold backwardDV
  cases W with
  | zero => exact r.elim0
  | succ S =>
    rw [bwdLoop_dv_inv q k v dout sm_scale is_causal S (le_refl (S + 1)) (prevRank r),
      Option.getD_some]
    show (∑ s ∈ Finset.range (S + 1),
        if bwdVisible is_causal s ((prevRank^[S - s] (prevRank r) : Fin (S + 1)) : ℕ) = true then
          (blockB q k v dout sm_scale is_causal (prevRank^[S - s] (prevRank r)) s).2.2 j t
        else 0)
      = refdV q k sm_scale is_causal dout r j t
    have hterm : ∀ s ∈ Finset.range (S + 1),
        (if bwdVisible is_causal s ((prevRank^[S - s] (prevRank r) : Fin (S + 1)) : ℕ) = true then
          (blockB q k v dout sm_scale is_causal (prevRank^[S - s] (prevRank r)) s).2.2 j t
        else 0)
        = ∑ i, refP q k sm_scale is_causal (prevRank^[S + 1 - s] r) i r j
            * dout (prevRank^[S + 1 - s] r) i t := by
      intro s hs
      have hs' : s < S + 1 := Finset.mem_range.mp hs
      have hre : prevRank^[S - s] (prevRank r) = prevRank^[S + 1 - s] r := by
        have he : S + 1 - s = (S - s) + 1 := by omega
        rw [he, Function.iterate_succ_apply]
      rw [hre]
      have hblk : prevRank^[s] (prevRank^[S + 1 - s] r) = r := by
        rw [← Function.iterate_add_apply]
        have he : s + (S + 1 - s) = S + 1 := by omega
        rw [he]
        exact prevRank_iterate_W r
      by_cases hv : bwdVisible is_causal s ((prevRank^[S + 1 - s] r : Fin (S + 1)) : ℕ) = true
      · rw [if_pos hv]
        show (∑ i, bwdP (q (prevRank^[S + 1 - s] r))
            (k (prevRank^[s] (prevRank^[S + 1 - s] r))) sm_scale
            (forwardLse q k v sm_scale is_causal (prevRank^[S + 1 - s] r))
            (bwdBlockCausal is_causal s) i j
          * dout (prevRank^[S + 1 - s] r) i t) = _
        rw [hblk]
        refine Finset.sum_congr rfl fun i _ => ?_
        congr 1
        have h := bwdP_eq_refP q k v sm_scale is_causal (prevRank^[S + 1 - s] r) hs' i j
        rw [if_pos hv, hblk] at h
        exact h
      · rw [if_neg hv]
        symm
        have hz : ∀ i, refP q k sm_scale is_causal (prevRank^[S + 1 - s] r) i r j = 0 := by
          intro i
          have h := bwdP_eq_refP q k v sm_scale is_causal (prevRank^[S + 1 - s] r) hs' i j
          rw [if_neg hv, hblk] at h
          exact h.symm
        exact Finset.sum_eq_zero (fun i _ => by rw [hz i, zero_mul])
    rw [Finset.sum_congr rfl hterm]
    unfold refdV
    rw [← Fin.sum_univ_eq_sum_range (fun s =>
        ∑ i, refP q k sm_scale is_causal (prevRank^[S + 1 - s] r) i r j
          * dout (prevRank^[S + 1 - s] r) i t) (S + 1)]
    exact Fintype.sum_bijective _ (recvBlock_bijective r) _ _ (fun s => rfl)

-- After the loop (whose last step issues no exchange), each rank's k
-- variable holds the block of its next neighbour, not its own block.
lemma fwdLoop_final_curK {W n d : ℕ} (q k v : Fin W → Mat n d) (sm_scale : ℝ)
    (is_causal : Bool) (r : Fin W) :
    (fwdLoop q k v sm_scale is_causal W).curK r = k (prevRank^[W - 1] r) := by
  cases W with
  | zero => exact r.elim0
  | succ S =>
    show (fwdStep q sm_scale is_causal (fwdLoop q k v sm_scale is_causal S) S).curK r = _
    rw [fwdStep_curK, if_neg (by omega : ¬ S + 1 ≠ S + 1),
      fwdLoop_curK q k v sm_scale is_causal S (by omega)]
    rfl

lemma fwdLoop_final_curV {W n d : ℕ} (q k v : Fin W → Mat n d) (sm_scale : ℝ)
    (is_causal : Bool) (r : Fin W) :
    (fwdLoop q k v sm_scale is_causal W).curV r = v (prevRank^[W - 1] r) := by
  cases W with
  | zero => exact r.elim0
  | succ S =>
    show (fwdStep q sm_scale is_causal (fwdLoop q k v sm_scale is_causal S) S).curV r = _
    rw [fwdStep_curV, if_neg (by omega : ¬ S + 1 ≠ S + 1),
      fwdLoop_curV q k v sm_scale is_causal S (by omega)]
    rfl

lemma prevRank_last_val {W : ℕ} (r : Fin W) :
    ((prevRank^[W - 1] r : Fin W) : ℕ) = ((r : ℕ) + 1) % W := by
  have hW : 0 < W := r.pos
  rw [prevRank_iterate_val (W - 1) r (by omega)]
  congr 1
  omega

-- At world size 1, the full-sequence reference reduces to the source's own
-- single-block kernel.
lemma refOut_one {n d : ℕ} (q0 k0 v0 : Mat n d) (sm_scale : ℝ) (is_causal : Bool)
    (i : Fin n) (t : Fin d) :
    refOut (W := 1) (fun _ => q0) (fun _ => k0) (fun _ => v0) sm_scale is_causal 0 i t
      = (ring_attention_forward q0 k0 v0 sm_scale is_causal).1 i t := by
  rw [raf_out_eq]
  have h0 : ∀ j : Fin n,
      (if gVisible is_causal (0 : Fin 1) i (0 : Fin 1) j then
        Real.exp (gScores (W := 1) (fun _ => q0) (fun _ => k0) sm_scale 0 i 0 j) else 0)
      = wMask q0 k0 sm_scale is_causal i j := by
    intro j
    have h := wStep_eq_global (W := 1) (fun _ => q0) (fun _ => k0) sm_scale is_causal
      (0 : Fin 1) (s := 0) (by omega) i j
    rw [if_pos (fwdVisible_zero _ _)] at h
    rw [show fwdBlockCausal is_causal 0 = is_causal by
      unfold fwdBlockCausal; simp] at h
    simp only [Function.iterate_zero, id_eq] at h
    exact h.symm
  unfold refOut refNum refD
  rw [Fin.sum_univ_one, Fin.sum_univ_one]
  congr 1
  · refine Finset.sum_congr rfl fun j _ => ?_
    rw [← h0 j, ite_mul, zero_mul]
  · exact Finset.sum_congr rfl fun j _ => h0 j

/-! Claim theorems. -/

/-- C1: for every world size W, causal flag, and per-rank Q/K/V blocks of
equal local sequence length, the ring-distributed forward pass returns for
each rank exactly the rows of the single-worker full-sequence (causal or
full) attention output that correspond to that rank's local query block;
in particular for W = 1 it equals standard single-block causal attention
(the source's own block kernel applied to the lone block). -/
theorem ring_forward_matches_full_attention :
    (∀ (W n d : ℕ) (q k v : Fin W → Mat n d) (sm_scale : ℝ) (is_causal : Bool)
        (r : Fin W) (i : Fin n) (t : Fin d),
      forwardOut q k v sm_scale is_causal r i t
        = refOut q k v sm_scale is_causal r i t)
    ∧ (∀ (n d : ℕ) (q0 k0 v0 : Mat n d) (sm_scale : ℝ) (is_causal : Bool)
        (i : Fin n) (t : Fin d),
      forwardOut (W := 1) (fun _ => q0) (fun _ => k0) (fun _ => v0)
          sm_scale is_causal 0 i t
        = (ring_attention_forward q0 k0 v0 sm_scale is_causal).1 i t) := by
  constructor
  · intro W n d q k v sm_scale is_causal r i t
    exact forward_correct q k v sm_scale is_causal r i t
  · intro n d q0 k0 v0 sm_scale is_causal i t
    rw [forward_correct]
    exact refOut_one q0 k0 v0 sm_scale is_causal i t

/-- C2: after the backward pass (including the final wait that drains the
gradient channel), every rank holds dQ equal to the exact analytic gradient
dQ = dS·K·scale of the full-sequence attention for its own query block, and
the returned dK = dSᵀ·Q·scale and dV = Pᵗ·dO are fully accumulated over all
causally visible ring steps for the K/V block the rank originally owned,
with dS = P ⊙ (dP − D), dP = dO·Vᵗ, D = rowsum(dO ⊙ O). -/
theorem ring_backward_matches_analytic_gradients :
    ∀ (W n d : ℕ) (q k v dout : Fin W → Mat n d) (sm_scale : ℝ)
      (is_causal : Bool) (r : Fin W),
      (∀ (i : Fin n) (t : Fin d),
        backwardDQ q k v sm_scale is_causal dout r i t
          = refdQ q k v sm_scale is_causal dout r i t)
      ∧ (∀ (j : Fin n) (t : Fin d),
        backwardDK q k v sm_scale is_causal dout r j t
          = refdK q k v sm_scale is_causal dout r j t)
      ∧ (∀ (j : Fin n) (t : Fin d),
        backwardDV q k v sm_scale is_causal dout r j t
          = refdV q k sm_scale is_causal dout r j t) := by
  intro W n d q k v dout sm_scale is_causal r
  exact ⟨fun i t => backward_dq_correct q k v dout sm_scale is_causal r i t,
    fun j t => backward_dk_correct q k v dout sm_scale is_causal r j t,
    fun j t => backward_dv_correct q k v dout sm_scale is_causal r j t⟩

/-- C3: evaluating `no_sync` on a body that raises: the generator-based
context manager has no try/finally, so the exception propagates with
`require_backward_grad_sync` still False — the flag is NOT restored to True,
contradicting the claim's guarantee for the exception path. -/
theorem no_sync_exception_leaves_sync_disabled :
    no_sync (fun st => (Except.error (), st)) ⟨true⟩
      = ((Except.error () : Except Unit Unit), ⟨false⟩) := rfl

/-- C4: the sigmoid/logsigmoid-based `_update` merge equals the naive
reference combination (new_lse = log(exp lse + exp block_lse), new_out the
corresponding convex combination) on all real inputs. -/
theorem sigmoid_merge_eq_naive_merge :
    ∀ (n d : ℕ) (out : Mat n d) (lse : Vec n) (block_out : Mat n d)
      (block_lse : Vec n),
      updateFn out lse block_out block_lse
        = mergeNaive out lse block_out block_lse := by
  intro n d out lse block_out block_lse
  refine Prod.ext ?_ ?_
  · funext i t
    show out i t - sigmoid (block_lse i - lse i) * (out i t - block_out i t)
      = Real.exp (lse i - Real.log (Real.exp (lse i) + Real.exp (block_lse i))) * out i t
        + Real.exp (block_lse i - Real.log (Real.exp (lse i) + Real.exp (block_lse i)))
          * block_out i t
    have hsum : (0 : ℝ) < Real.exp (lse i) + Real.exp (block_lse i) := by positivity
    have h1 : Real.exp (lse i - Real.log (Real.exp (lse i) + Real.exp (block_lse i)))
        = Real.exp (lse i) / (Real.exp (lse i) + Real.exp (block_lse i)) := by
      rw [Real.exp_sub, Real.exp_log hsum]
    have h2 : Real.exp (block_lse i - Real.log (Real.exp (lse i) + Real.exp (block_lse i)))
        = Real.exp (block_lse i) / (Real.exp (lse i) + Real.exp (block_lse i)) := by
      rw [Real.exp_sub, Real.exp_log hsum]
    rw [h1, h2, sigmoid_sub_exp]
    have h3 : Real.exp (block_lse i) + Real.exp (lse i) ≠ 0 := by positivity
    have h4 : Real.exp (lse i) + Real.exp (block_lse i) ≠ 0 := hsum.ne'
    field_simp
    ring
  · funext i
    show lse i - logsigmoid (lse i - block_lse i)
      = Real.log (Real.exp (lse i) + Real.exp (block_lse i))
    rw [logsigmoid_sub_exp]
    ring

/-- C5: the forward loop's visibility test (line 101) and the backward
loop's (line 143) are the same condition, namely (not causal) or
step ≤ rank, so a forward step computes a block contribution iff the
corresponding backward step computes a block gradient contribution. -/
theorem fwd_bwd_visibility_conditions_agree :
    ∀ (is_causal : Bool) (step rank : ℕ),
      fwdVisible is_causal step rank = bwdVisible is_causal step rank
      ∧ fwdVisible is_causal step rank = (!is_causal || decide (step ≤ rank)) := by
  intro is_causal step rank
  exact ⟨(bwdVisible_eq_fwdVisible is_causal step rank).symm, rfl⟩

/-- C6: in both the forward and the backward ring loop, the causal flag
handed to the block kernel (which applies the intra-block lower-triangular
mask) is the same and is true exactly when the causal flag is set and the
step index is 0; every other causally visible step runs fully unmasked. -/
theorem intra_block_mask_iff_step_zero :
    ∀ (is_causal : Bool) (step : ℕ),
      fwdBlockCausal is_causal step = bwdBlockCausal is_causal step
      ∧ (fwdBlockCausal is_causal step = true ↔ is_causal = true ∧ step = 0) := by
  intro is_causal step
  refine ⟨rfl, ?_⟩
  unfold fwdBlockCausal
  simp

/-- C7: the gradient hook returns the elementwise sum across the
data-parallel group divided by the group size when synchronization is
enabled (performing one collective), and returns the local gradient
unchanged with no collective when synchronization is disabled. -/
theorem allreduce_hook_averages_or_passes_through :
    ∀ (W m : ℕ) (grads : Fin W → Vec m) (r : Fin W),
      allreduce_grads true grads r
        = (fun i => (∑ ρ, grads ρ i) / (W : ℝ), 1)
      ∧ allreduce_grads false grads r = (grads r, 0) := by
  intro W m grads r
  exact ⟨rfl, rfl⟩

/-- C8: calling the online-softmax merge with an absent running state
(out = None, slice_ = None) returns (block_out, block_lse) unchanged. -/
theorem merge_first_contribution_unchanged :
    ∀ (n d : ℕ) (block_out : Mat n d) (block_lse : Vec n),
      update_out_and_lse none block_out block_lse none
        = Except.ok (block_out, block_lse) := by
  intro n d block_out block_lse
  rfl

/-- C9: the K and V tensors saved for the backward pass are the rank's
original local blocks (the pre-loop clones), while the loop's rotation
leaves each rank's k/v variable holding the block of rank (r+1) mod W after
the final step — the saved copies are untouched by the rotation. -/
theorem saved_kv_are_original_blocks :
    ∀ (W n d : ℕ) (q k v : Fin W → Mat n d) (sm_scale : ℝ) (is_causal : Bool)
      (r : Fin W),
      (forwardSaved q k v sm_scale is_causal r).2.1 = k r
      ∧ (forwardSaved q k v sm_scale is_causal r).2.2.1 = v r
      ∧ (fwdLoop q k v sm_scale is_causal W).curK r = k (prevRank^[W - 1] r)
      ∧ (fwdLoop q k v sm_scale is_causal W).curV r = v (prevRank^[W - 1] r)
      ∧ ((prevRank^[W - 1] r : Fin W) : ℕ) = ((r : ℕ) + 1) % W := by
  intro W n d q k v sm_scale is_causal r
  exact ⟨rfl, rfl, fwdLoop_final_curK q k v sm_scale is_causal r,
    fwdLoop_final_curV q k v sm_scale is_causal r, prevRank_last_val r⟩

/-- C10: calling the online-softmax merge with an absent running state but a
non-None slice_ raises a RuntimeError and produces no result. -/
theorem merge_slice_on_first_contribution_raises :
    ∀ (n d : ℕ) (block_out : Mat n d) (block_lse : Vec n) (p : Fin n → Bool),
      update_out_and_lse none block_out block_lse (some p)
        = Except.error "first update_out_and_lse should not pass slice_ args" := by
  intro n d block_out block_lse p
  rfl

end Picotron
